import Mathlib

/-!
# Escape-time Mandelbrot generator (`fractals.h`)

A shallow embedding of `src/fractals.h`.

## Arithmetic

The C++ type `double` is embedded as `Double`: IEEE-754 binary64 with the default
rounding mode (round to nearest, ties to even).  A finite double is carried by the
rational number it denotes, the two infinities and NaN are separate constructors.
Every arithmetic operation computes the exact rational result and rounds it once
with `roundQ` (53 significant bits, smallest exponent `-1074`, overflow to an
infinity at `2^1024`), each C++ operation being one correctly rounded binary64
operation (no fused multiply-add, no extended precision).

`Double.fin q` is a value of the C++ type only when `q` is a binary64 number, which
`Representable q` says (`Double.IsDouble` for a value that may also be an infinity or
NaN); a statement that needs its inputs to be doubles carries that hypothesis, the others
hold for every rational.

The sign of a zero is not recorded.  The program never divides by a computed value
(the only divisors are the `int` image dimensions), and IEEE comparisons do not
distinguish the two zeros, so no value, comparison or iteration count modelled here
depends on it.

The C++ type `int` is embedded as `Int`.  The only `int` arithmetic in the header is
`++iterations` under the guard `iterations < max_iterations`, which cannot overflow.
`uint16` (`unsigned short`) is embedded as `Nat`, the conversion from `int` being
reduction modulo `2^16`.
-/

namespace fractals

/-! ## IEEE-754 binary64 -/

/-- Two to the power `e`, as a rational. -/
def pow2 (e : Int) : ℚ :=
  if 0 ≤ e then ((2 ^ e.toNat : Nat) : ℚ) else 1 / ((2 ^ (-e).toNat : Nat) : ℚ)

/-- A value of the C++ type `double`. -/
inductive Double where
  | fin (q : ℚ)
  | inf (neg : Bool)
  | nan
  deriving DecidableEq

/-- Halving loop behind `log2`; the first argument bounds the number of halvings. -/
def log2Loop : Nat → Nat → Nat
  | 0, _ => 0
  | left + 1, n => if 2 ≤ n then log2Loop left (n / 2) + 1 else 0

/-- Position of the leading bit of a natural number: `⌊log₂ n⌋` for `0 < n`. -/
def log2 (n : Nat) : Nat := log2Loop n n

/-- Exponent of the leading bit of a positive rational `a`: the `k` with
`2^k ≤ a < 2^(k+1)`. -/
def ilog2 (a : ℚ) : Int :=
  let k : Int := (log2 a.num.natAbs : Int) - (log2 a.den : Int)
  if pow2 k ≤ a then k else k - 1

/-- The integer nearest to `x`, ties going to the even one. -/
def roundEven (x : ℚ) : Int :=
  let f : Int := ⌊x⌋
  let r : ℚ := x - f
  if r < 1 / 2 then f
  else if 1 / 2 < r then f + 1
  else if f % 2 = 0 then f else f + 1

/-- Rounding of an exact result to binary64. -/
def roundQ (q : ℚ) : Double :=
  if q = 0 then Double.fin 0
  else
    let a : ℚ := |q|
    let e : Int := max (ilog2 a - 52) (-1074)
    let r : ℚ := (roundEven (a / pow2 e) : ℚ) * pow2 e
    if pow2 1024 ≤ r then Double.inf (decide (q < 0))
    else Double.fin (if q < 0 then -r else r)

namespace Double

/-- Conversion `int → double`; exact, every `int` is representable. -/
def ofInt (x : Int) : Double := fin x

/-- The C++ `a + b` on doubles. -/
def add : Double → Double → Double
  | fin a, fin b => roundQ (a + b)
  | nan, _ => nan
  | _, nan => nan
  | inf s, inf t => if s = t then inf s else nan
  | inf s, fin _ => inf s
  | fin _, inf t => inf t

/-- The C++ `a - b` on doubles. -/
def sub : Double → Double → Double
  | fin a, fin b => roundQ (a - b)
  | nan, _ => nan
  | _, nan => nan
  | inf s, inf t => if s = t then nan else inf s
  | inf s, fin _ => inf s
  | fin _, inf t => inf (!t)

/-- The C++ `a * b` on doubles. -/
def mul : Double → Double → Double
  | fin a, fin b => roundQ (a * b)
  | nan, _ => nan
  | _, nan => nan
  | inf s, inf t => inf (xor s t)
  | inf s, fin b => if b = 0 then nan else inf (xor s (decide (b < 0)))
  | fin a, inf t => if a = 0 then nan else inf (xor (decide (a < 0)) t)

/-- The C++ `a / b` on doubles. -/
def div : Double → Double → Double
  | fin a, fin b =>
    if b = 0 then (if a = 0 then nan else inf (decide (a < 0)))
    else roundQ (a / b)
  | nan, _ => nan
  | _, nan => nan
  | inf _, inf _ => nan
  | inf s, fin b => inf (xor s (decide (b < 0)))
  | fin _, inf _ => fin 0

/-- The C++ `a <= b` on doubles (false when either side is NaN). -/
def le : Double → Double → Bool
  | fin a, fin b => decide (a ≤ b)
  | nan, _ => false
  | _, nan => false
  | inf s, inf t => s || !t
  | inf s, fin _ => s
  | fin _, inf t => !t

/-- The C++ `a > b` on doubles (false when either side is NaN). -/
def gt : Double → Double → Bool
  | fin a, fin b => decide (b < a)
  | nan, _ => false
  | _, nan => false
  | inf s, inf t => !s && t
  | inf s, fin _ => !s
  | fin _, inf t => t

/-- The C++ `a == b` on doubles (false when either side is NaN). -/
def eq : Double → Double → Bool
  | fin a, fin b => decide (a = b)
  | inf s, inf t => s == t
  | _, _ => false

/-- The C++ unary `-a` on doubles. -/
def neg : Double → Double
  | fin a => fin (-a)
  | inf s => inf (!s)
  | nan => nan

/-- The C++ cast `(int) a` of a double: the value truncated toward zero.  The cast is
undefined for a NaN, an infinity and a value outside the range of `int`; `none` stands for
these. -/
def toInt : Double → Option Int
  | fin a =>
    let t : Int := if 0 ≤ a then ⌊a⌋ else -⌊-a⌋
    if -2147483648 ≤ t ∧ t ≤ 2147483647 then some t else none
  | inf _ => none
  | nan => none

end Double

/-- The rational `q` is a finite double: rounding leaves it as it is. -/
def Representable (q : ℚ) : Prop := roundQ q = Double.fin q

instance (q : ℚ) : Decidable (Representable q) :=
  inferInstanceAs (Decidable (roundQ q = Double.fin q))

/-- The value is one that a C++ `double` holds: a representable number, an infinity or
NaN. -/
def Double.IsDouble : Double → Prop
  | Double.fin q => Representable q
  | _ => True

/-! ## `class Complex` -/

/-- The C++ `class Complex`: a pair of doubles. -/
structure Complex where
  _real : Double
  _imag : Double
  deriving DecidableEq

namespace Complex

/-- The constructor `Complex(double real = 0.0, double imag = 0.0)` with both defaults,
as in the declaration `Complex z;`. -/
def zero : Complex := ⟨Double.fin 0, Double.fin 0⟩

/-- The converting constructor `Complex(real)`, the imaginary part defaulting to `0.0`. -/
def ofReal (real : Double) : Complex := ⟨real, Double.fin 0⟩

/-- Accessor `real()`. -/
def real (z : Complex) : Double := z._real

/-- Accessor `imag()`. -/
def imag (z : Complex) : Double := z._imag

/-- The C++ `Complex::operator+`. -/
def add (z other : Complex) : Complex :=
  ⟨z._real.add other._real, z._imag.add other._imag⟩

/-- The C++ `Complex::operator-`. -/
def sub (z other : Complex) : Complex :=
  ⟨z._real.sub other._real, z._imag.sub other._imag⟩

/-- The C++ `Complex::operator*`. -/
def mul (z other : Complex) : Complex :=
  ⟨(z._real.mul other._real).sub (z._imag.mul other._imag),
   (z._real.mul other._imag).add (other._real.mul z._imag)⟩

/-- The C++ `Complex::sqmagnitude`. -/
def sqmagnitude (z : Complex) : Double :=
  (z._real.mul z._real).add (z._imag.mul z._imag)

end Complex

/-! ## Free functions -/

/-- The `while` loop of `getMandelbrotIterations`.  The first argument bounds the number
of passes by the budget that is left: `getMandelbrotIterations` starts it at
`max_iterations`, so it reaches `0` exactly when `iterations < max_iterations` fails. -/
def mandelbrotLoop (c : Complex) (max_iterations : Int) : Nat → Int → Complex → Int
  | 0, iterations, _ => iterations
  | left + 1, iterations, z =>
    if iterations < max_iterations ∧ z.sqmagnitude.le (Double.ofInt 4) = true then
      mandelbrotLoop c max_iterations left (iterations + 1) ((z.mul z).add c)
    else iterations

/-- The free function `int getMandelbrotIterations(Complex c, int max_iterations)`. -/
def getMandelbrotIterations (c : Complex) (max_iterations : Int) : Int :=
  mandelbrotLoop c max_iterations max_iterations.toNat 0 Complex.zero

/-- The free function `mapPixelToComplex`. -/
def mapPixelToComplex (x y width height : Int) (min max : Complex) : Complex :=
  ⟨((Double.ofInt x).mul ((max.real.sub min.real).div (Double.ofInt width))).add min.real,
   ((Double.ofInt y).mul ((max.imag.sub min.imag).div (Double.ofInt height))).add min.imag⟩

/-! ## The iteration grid -/

/-- The C++ `uint16` (`unsigned short`). -/
abbrev uint16 := Nat

/-- Conversion `int → uint16`: reduction modulo `2^16`. -/
def toUint16 (i : Int) : uint16 := (i % 65536).toNat

/-- The C++ `Array2D` (`uint16**`): the rows of a grid. -/
abbrev Array2D := List (List uint16)

/-- The state after the first `k` passes of a counted loop: pass `i` applies `body i`. -/
def forLoopUpTo {σ : Type} (body : Int → σ → σ) : Nat → σ → σ
  | 0, s => s
  | k + 1, s => body k (forLoopUpTo body k s)

/-- The counted loop `for (int i = 0; i < n; i++) body`, threading the state that the
body updates. -/
def forLoop {σ : Type} (n : Int) (body : Int → σ → σ) (s : σ) : σ :=
  forLoopUpTo body n.toNat s

namespace Array2D

/-- The assignment `array[i][j] = v`. -/
def write (array : Array2D) (i j : Int) (v : uint16) : Array2D :=
  array.set i.toNat ((array.getD i.toNat []).set j.toNat v)

/-- The read `array[i][j]`; `none` outside the allocation, where the C++ read is
undefined. -/
def read (array : Array2D) (i j : Int) : Option uint16 :=
  if 0 ≤ i ∧ 0 ≤ j then array[i.toNat]?.bind (fun row => row[j.toNat]?) else none

end Array2D

/-- Content of a cell that `new uint16[width]` has allocated and nothing has written:
indeterminate in C++, a fixed marker here. -/
def uninitialised : uint16 := 0xCDCD

/-- The free function `allocateBidimensionalDynamicArray`; the array it stores through
its reference parameter is the result. -/
def allocateBidimensionalDynamicArray (height width : Int) : Array2D :=
  forLoop height
    (fun i array =>
      forLoop width (fun j array => array.write i j 0)
        (array.set i.toNat (List.replicate width.toNat uninitialised)))
    (List.replicate height.toNat [])

/-! ## `class Mandelbrot` -/

/-- The data members of the C++ `class Mandelbrot`. -/
structure Mandelbrot where
  _lowerBounds : Complex
  _upperBounds : Complex
  _width : Int
  _height : Int
  _iterationMap : Array2D

namespace Mandelbrot

/-- The constructor `Mandelbrot(int height, int width)`. -/
def new (height width : Int) : Mandelbrot where
  _height := height
  _width := width
  _lowerBounds := ⟨Double.ofInt (-2), Double.ofInt (-1)⟩
  _upperBounds := ⟨Double.ofInt 1, Double.ofInt 1⟩
  _iterationMap := allocateBidimensionalDynamicArray height width

/-- The constructor `Mandelbrot(int height, int width, Complex upperBounds,
Complex lowerBounds)`. -/
def newWithBounds (height width : Int) (upperBounds lowerBounds : Complex) : Mandelbrot where
  _height := height
  _width := width
  _lowerBounds := upperBounds
  _upperBounds := lowerBounds
  _iterationMap := allocateBidimensionalDynamicArray height width

/-- The `while` loop of the private member `getMandelbrotIterations(Complex, int)`; the
first argument bounds the number of passes by the budget that is left. -/
def memberLoop (c : Complex) (max_iterations : Int) : Nat → Int → Complex → Int
  | 0, iterations, _ => iterations
  | left + 1, iterations, z =>
    if iterations < max_iterations ∧ z.sqmagnitude.le (Double.ofInt 4) = true then
      memberLoop c max_iterations left (iterations + 1) ((z.mul z).add c)
    else iterations

/-- The private member `uint16 getMandelbrotIterations(Complex c, int max_iterations)`. -/
def getMandelbrotIterations (c : Complex) (max_iterations : Int) : uint16 :=
  toUint16 (memberLoop c max_iterations max_iterations.toNat 0 Complex.zero)

/-- The private member `uint16 getMandelbrotIterations(int x, int y, int max_iterations)`. -/
def getMandelbrotIterationsAt (m : Mandelbrot) (x y max_iterations : Int) : uint16 :=
  getMandelbrotIterations
    (mapPixelToComplex x y m._width m._height m._lowerBounds m._upperBounds)
    max_iterations

/-- The member `loadIterationMap`. -/
def loadIterationMap (m : Mandelbrot) (maxIterations : Int) : Mandelbrot :=
  { m with
    _iterationMap :=
      forLoop m._height
        (fun y map =>
          forLoop m._width
            (fun x map => map.write y x (m.getMandelbrotIterationsAt x y maxIterations))
            map)
        m._iterationMap }

/-- The member `getIterationFromMap`: the `uint16` cell `_iterationMap[y][x]` as an `int`. -/
def getIterationFromMap (m : Mandelbrot) (x y : Int) : Option Int :=
  (m._iterationMap.read y x).map Int.ofNat

/-- The local `OFFSET` of `printImage`: `point * scale`, the `double` scale converted by the
constructor `Complex(scale)`. -/
def printImage.OFFSET (point : Complex) (scale : Double) : Complex :=
  point.mul (Complex.ofReal scale)

/-- The local `MAX` of `printImage`: `upperBounds * scale + OFFSET`. -/
def printImage.MAX (point : Complex) (scale : Double) (upperBounds : Complex) : Complex :=
  (upperBounds.mul (Complex.ofReal scale)).add (printImage.OFFSET point scale)

/-- The local `MIN` of `printImage`: `lowerBounds * scale + OFFSET`. -/
def printImage.MIN (point : Complex) (scale : Double) (lowerBounds : Complex) : Complex :=
  (lowerBounds.mul (Complex.ofReal scale)).add (printImage.OFFSET point scale)

/-- The member `printImage` up to the point where the file is written: the generator built
from the derived corners, after its generation pass.  The result is the local `mandelbrot`
whose grid the pixel loop then reads. -/
def printImage (point : Complex) (scale : Double) (upperBounds lowerBounds : Complex)
    (image_width image_height max_iterations : Int) : Mandelbrot :=
  let mandelbrot := newWithBounds image_height image_width
    (printImage.MAX point scale upperBounds) (printImage.MIN point scale lowerBounds)
  mandelbrot.loadIterationMap max_iterations

/-- The colour of a pixel, as `printImage` and `main` compute it from the count `maxIter`
of the pixel: `r = (int)(maxIter * log2(maxIter)) % 256`, `g = maxIter % 256`,
`b = (int)(maxIter * log10(maxIter)) % 256`, with the `%` of C++ on `int`.  The functions
`log2` and `log10` of `<math.h>` are not part of the repository and are parameters. -/
def printImage.rgb (log2 log10 : Double → Double) (maxIter : Int) : Option (Int × Int × Int) :=
  match ((Double.ofInt maxIter).mul (log2 (Double.ofInt maxIter))).toInt,
    ((Double.ofInt maxIter).mul (log10 (Double.ofInt maxIter))).toInt with
  | some r, some b => some (r.tmod 256, maxIter.tmod 256, b.tmod 256)
  | _, _ => none

end Mandelbrot

/-! ## Notions used to state the properties -/

/-- The orbit of `0` under `z ↦ z*z + c`, in the arithmetic of the program:
`z₀ = 0`, `z_{j+1} = z_j * z_j + c`. -/
def orbit (c : Complex) : Nat → Complex
  | 0 => Complex.zero
  | j + 1 => ((orbit c j).mul (orbit c j)).add c

/-- No component of `z` is NaN. -/
def Complex.noNaN (z : Complex) : Prop := z._real ≠ Double.nan ∧ z._imag ≠ Double.nan

instance (z : Complex) : Decidable z.noNaN := inferInstanceAs (Decidable (_ ∧ _))

/-- A double that is neither NaN nor negative. -/
def Double.NonNeg : Double → Prop
  | fin r => 0 ≤ r
  | inf neg => neg = false
  | nan => False

/-- The grid has `h` rows of `w` cells each. -/
def Array2D.Shape (array : Array2D) (h w : Nat) : Prop :=
  array.length = h ∧ ∀ (i : Nat) (row : List uint16), array[i]? = some row → row.length = w

/-- A row after the first `k` passes of a loop that stores `f j` in cell `j`. -/
def fillRow (f : Int → uint16) (k : Nat) (row : List uint16) : List uint16 :=
  forLoopUpTo (fun j r => r.set j.toNat (f j)) k row

/-- The complex conjugate `(a, -b)` of `(a, b)`. -/
def Complex.conj (z : Complex) : Complex := ⟨z._real, z._imag.neg⟩

/-- None of the four operations of `x * ((hi - lo) / width) + lo`, one coordinate of
`mapPixelToComplex` over the finite bounds `lo` and `hi`, rounds. -/
def ExactCoordinate (x width : Int) (lo hi : ℚ) : Prop :=
  Representable (hi - lo) ∧ Representable ((hi - lo) / width) ∧
    Representable (x * ((hi - lo) / width)) ∧ Representable (x * ((hi - lo) / width) + lo)

instance (x width : Int) (lo hi : ℚ) : Decidable (ExactCoordinate x width lo hi) :=
  inferInstanceAs (Decidable (_ ∧ _ ∧ _ ∧ _))

/-- The grid of the generator has the dimensions of the generator. -/
def Mandelbrot.WellFormed (m : Mandelbrot) : Prop :=
  m._iterationMap.Shape m._height.toNat m._width.toNat

end fractals

/-! # Properties -/

namespace fractals

/-! ## Facts about the arithmetic -/

theorem pow2_pos (e : Int) : 0 < pow2 e := by
  unfold pow2
  split <;> positivity

theorem roundEven_nonneg {x : ℚ} (hx : 0 ≤ x) : 0 ≤ roundEven x := by
  have hf : (0 : Int) ≤ ⌊x⌋ := Int.floor_nonneg.mpr hx
  unfold roundEven
  simp only
  split_ifs <;> omega

theorem roundQ_ne_nan (q : ℚ) : roundQ q ≠ Double.nan := by
  unfold roundQ
  simp only
  split_ifs <;> simp

theorem roundQ_zero : roundQ 0 = Double.fin 0 := by
  simp [roundQ]

/-- Known values of binary64 rounding: `0.1` and `1/3`, ties going to the even neighbour
at `2^53`, the largest finite double and the overflow threshold, and the subnormal range. -/
theorem roundQ_known_values :
    roundQ (1 / 10) = Double.fin (3602879701896397 / 36028797018963968) ∧
    roundQ (-(1 / 10)) = Double.fin (-(3602879701896397 / 36028797018963968)) ∧
    roundQ (1 / 3) = Double.fin (6004799503160661 / 18014398509481984) ∧
    roundQ (2 ^ 53 + 1) = Double.fin (2 ^ 53) ∧
    roundQ (2 ^ 53 + 3) = Double.fin (2 ^ 53 + 4) ∧
    roundQ (pow2 1024 - pow2 971) = Double.fin (pow2 1024 - pow2 971) ∧
    roundQ (pow2 1024 - pow2 970 - 1) = Double.fin (pow2 1024 - pow2 971) ∧
    roundQ (pow2 1024 - pow2 970) = Double.inf false ∧
    roundQ (-(pow2 1024)) = Double.inf true ∧
    roundQ (pow2 (-1074)) = Double.fin (pow2 (-1074)) ∧
    roundQ (pow2 (-1075)) = Double.fin 0 ∧
    roundQ (3 * pow2 (-1075)) = Double.fin (pow2 (-1073)) := by
  decide!

theorem roundQ_nonneg {q : ℚ} (hq : 0 ≤ q) : (roundQ q).NonNeg := by
  unfold roundQ
  simp only
  have hlt : ¬ q < 0 := not_lt.mpr hq
  split_ifs with h0 hbig
  · simp [Double.NonNeg]
  · simp [Double.NonNeg, hlt]
  · simp only [Double.NonNeg]
    have h1 : 0 ≤ roundEven (|q| / pow2 (max (ilog2 |q| - 52) (-1074))) :=
      roundEven_nonneg (div_nonneg (abs_nonneg q) (pow2_pos _).le)
    have h2 : (0 : ℚ) ≤ (roundEven (|q| / pow2 (max (ilog2 |q| - 52) (-1074))) : ℚ) := by
      exact_mod_cast h1
    exact mul_nonneg h2 (pow2_pos _).le

namespace Double

theorem nonNeg_ne_nan {x : Double} (hx : x.NonNeg) : x ≠ nan := by
  rintro rfl
  exact hx

theorem mul_self_nonNeg {x : Double} (hx : x ≠ nan) : (x.mul x).NonNeg := by
  cases x with
  | fin a => exact roundQ_nonneg (mul_self_nonneg a)
  | inf s => simp [mul, NonNeg]
  | nan => exact absurd rfl hx

theorem add_nonNeg {x y : Double} (hx : x.NonNeg) (hy : y.NonNeg) : (x.add y).NonNeg := by
  cases x <;> cases y <;> simp_all [add, NonNeg]
  exact roundQ_nonneg (add_nonneg hx hy)

theorem not_le_iff_gt {x : Double} (hx : x ≠ nan) (y : ℚ) :
    x.le (fin y) = false ↔ x.gt (fin y) = true := by
  cases x with
  | fin a => simp [le, gt]
  | inf s => simp [le, gt]
  | nan => exact absurd rfl hx

theorem gt_false_of_le {x y : Double} (h : x.le y = true) : x.gt y = false := by
  cases x with
  | fin a => cases y <;> simp_all [le, gt]
  | inf s =>
    cases y with
    | fin b => simp_all [le, gt]
    | inf t => cases s <;> cases t <;> simp_all [le, gt]
    | nan => simp [gt]
  | nan => simp [gt]

theorem fin_of_nonNeg_of_le {x : Double} (hx : x.NonNeg) {y : ℚ} (h : x.le (fin y) = true) :
    ∃ r, x = fin r := by
  cases x with
  | fin a => exact ⟨a, rfl⟩
  | inf s => simp_all [le, NonNeg]
  | nan => exact absurd hx id

theorem fin_of_add_eq_fin {x y : Double} {r : ℚ} (h : x.add y = fin r) :
    (∃ a, x = fin a) ∧ ∃ b, y = fin b := by
  cases x <;> cases y <;> simp_all [add]
  split_ifs at h

theorem fin_of_mul_self_eq_fin {x : Double} {r : ℚ} (h : x.mul x = fin r) : ∃ a, x = fin a := by
  cases x <;> simp_all [mul]

theorem fin_mul_fin_ne_nan (a b : ℚ) : (fin a).mul (fin b) ≠ nan := roundQ_ne_nan _

theorem add_fin_ne_nan {x : Double} (hx : x ≠ nan) (p : ℚ) : x.add (fin p) ≠ nan := by
  cases x with
  | fin a => exact roundQ_ne_nan _
  | inf s => simp [add]
  | nan => exact absurd rfl hx

theorem add_self_ne_nan {x : Double} (hx : x ≠ nan) : x.add x ≠ nan := by
  cases x with
  | fin a => exact roundQ_ne_nan _
  | inf s => simp [add]
  | nan => exact absurd rfl hx

end Double

/-! ## The escape-time loop -/

/-- What the `while` loop returns when it is entered at pass `j` with `z = z_j` and the
budget that is left: the first index from `j` on at which the guard fails. -/
theorem mandelbrotLoop_spec (c : Complex) (N : Int) :
    ∀ (left j : Nat), (j : Int) + left = N →
      ∃ k : Nat, mandelbrotLoop c N left j (orbit c j) = k ∧ j ≤ k ∧ (k : Int) ≤ N ∧
        ((k : Int) = N ∨ (orbit c k).sqmagnitude.le (Double.ofInt 4) = false) ∧
        ∀ i, j ≤ i → i < k → (orbit c i).sqmagnitude.le (Double.ofInt 4) = true := by
  intro left
  induction left with
  | zero =>
    intro j hj
    refine ⟨j, rfl, le_refl j, by omega, Or.inl (by omega), ?_⟩
    intro i hi hik
    omega
  | succ left ih =>
    intro j hj
    by_cases hg : (j : Int) < N ∧ (orbit c j).sqmagnitude.le (Double.ofInt 4) = true
    · obtain ⟨k, hk, hjk, hkN, hexit, hbelow⟩ := ih (j + 1) (by push_cast; omega)
      refine ⟨k, ?_, by omega, hkN, hexit, ?_⟩
      · rw [mandelbrotLoop, if_pos hg]
        exact hk
      · intro i hi hik
        rcases Nat.eq_or_lt_of_le hi with h | h
        · exact h ▸ hg.2
        · exact hbelow i h hik
    · refine ⟨j, ?_, le_refl j, by omega, Or.inr ?_, ?_⟩
      · rw [mandelbrotLoop, if_neg hg]
      · have hlt : (j : Int) < N := by omega
        cases hle : (orbit c j).sqmagnitude.le (Double.ofInt 4) with
        | false => rfl
        | true => exact absurd ⟨hlt, hle⟩ hg
      · intro i hi hik
        omega

/-- The free function returns the first index at which the loop guard fails. -/
theorem getMandelbrotIterations_spec (c : Complex) (N : Int) (hN : 0 ≤ N) :
    ∃ k : Nat, getMandelbrotIterations c N = k ∧ (k : Int) ≤ N ∧
      ((k : Int) = N ∨ (orbit c k).sqmagnitude.le (Double.ofInt 4) = false) ∧
      ∀ i, i < k → (orbit c i).sqmagnitude.le (Double.ofInt 4) = true := by
  obtain ⟨k, hk, -, hkN, hexit, hbelow⟩ :=
    mandelbrotLoop_spec c N N.toNat 0 (by simp [Int.toNat_of_nonneg hN])
  exact ⟨k, hk, hkN, hexit, fun i hi => hbelow i (Nat.zero_le i) hi⟩

/-! ## No NaN arises from a NaN-free point -/

theorem Complex.sqmagnitude_nonNeg {z : Complex} (hz : z.noNaN) : z.sqmagnitude.NonNeg :=
  Double.add_nonNeg (Double.mul_self_nonNeg hz.1) (Double.mul_self_nonNeg hz.2)

theorem Complex.zero_noNaN : Complex.zero.noNaN := by
  simp [Complex.zero, Complex.noNaN]

/-- One pass of the loop from a NaN-free `z` that passes the guard, for a finite `c`. -/
theorem step_noNaN {z : Complex} (hz : z.noNaN) (p q : ℚ)
    (hle : z.sqmagnitude.le (Double.ofInt 4) = true) :
    ((z.mul z).add ⟨Double.fin p, Double.fin q⟩).noNaN := by
  obtain ⟨s, hs⟩ := Double.fin_of_nonNeg_of_le (Complex.sqmagnitude_nonNeg hz) hle
  obtain ⟨⟨x, hx⟩, ⟨y, hy⟩⟩ := Double.fin_of_add_eq_fin hs
  obtain ⟨a, ha⟩ := Double.fin_of_mul_self_eq_fin hx
  obtain ⟨b, hb⟩ := Double.fin_of_mul_self_eq_fin hy
  obtain ⟨re, im⟩ := z
  simp only at ha hb
  subst ha hb
  constructor
  · show ((((Double.fin a).mul (Double.fin a)).sub ((Double.fin b).mul (Double.fin b))).add
      (Double.fin p)) ≠ Double.nan
    rw [hx, hy]
    exact Double.add_fin_ne_nan (roundQ_ne_nan _) p
  · exact Double.add_fin_ne_nan (Double.add_self_ne_nan (Double.fin_mul_fin_ne_nan a b)) q

/-- For a finite `c` the orbit is NaN-free as long as the guard has let it run. -/
theorem orbit_noNaN_of_fin (p q : ℚ) :
    ∀ j : Nat,
      (∀ i, i < j →
        (orbit ⟨Double.fin p, Double.fin q⟩ i).sqmagnitude.le (Double.ofInt 4) = true) →
      (orbit ⟨Double.fin p, Double.fin q⟩ j).noNaN := by
  intro j
  induction j with
  | zero => exact fun _ => Complex.zero_noNaN
  | succ j ih =>
    intro h
    exact step_noNaN (ih fun i hi => h i (Nat.lt_succ_of_lt hi)) p q (h j (Nat.lt_succ_self j))

/-- The first orbit point `z₁ = 0*0 + c` of a NaN-free `c` is NaN-free. -/
theorem orbit_one_noNaN {c : Complex} (hc : c.noNaN) : (orbit c 1).noNaN := by
  obtain ⟨re, im⟩ := c
  obtain ⟨hre, him⟩ := hc
  simp only at hre him
  constructor
  · show (((Double.fin 0).mul (Double.fin 0)).sub ((Double.fin 0).mul (Double.fin 0))).add re
      ≠ Double.nan
    cases re with
    | fin a => exact Double.add_fin_ne_nan (by simp [Double.mul, Double.sub, roundQ_zero]) a
    | inf s => simp [Double.mul, Double.sub, Double.add, roundQ_zero]
    | nan => exact absurd rfl hre
  · show (((Double.fin 0).mul (Double.fin 0)).add ((Double.fin 0).mul (Double.fin 0))).add im
      ≠ Double.nan
    cases im with
    | fin a => exact Double.add_fin_ne_nan (by simp [Double.mul, Double.add, roundQ_zero]) a
    | inf s => simp [Double.mul, Double.add, roundQ_zero]
    | nan => exact absurd rfl him

/-- The guard holds at `z₀ = 0`. -/
theorem orbit_zero_le (c : Complex) :
    (orbit c 0).sqmagnitude.le (Double.ofInt 4) = true := by
  simp [orbit, Complex.zero, Complex.sqmagnitude, Double.mul, Double.add, Double.le,
    Double.ofInt, roundQ_zero]

/-- When `c` has an infinite component, the squared magnitude of `z₁` is `+∞`. -/
theorem orbit_one_sqmagnitude_of_inf {c : Complex} (hc : c.noNaN)
    (hinf : (∃ s, c._real = Double.inf s) ∨ ∃ s, c._imag = Double.inf s) :
    (orbit c 1).sqmagnitude = Double.inf false := by
  obtain ⟨re, im⟩ := c
  obtain ⟨hre, him⟩ := hc
  simp only at hre him hinf
  have h0 : (Double.fin 0).mul (Double.fin 0) = Double.fin 0 := by simp [Double.mul, roundQ_zero]
  have hs : (Double.fin 0).sub (Double.fin 0) = Double.fin 0 := by simp [Double.sub, roundQ_zero]
  have ha : (Double.fin 0).add (Double.fin 0) = Double.fin 0 := by simp [Double.add, roundQ_zero]
  have key : ∀ u v : Double, u ≠ Double.nan → v ≠ Double.nan →
      ((∃ s, u = Double.inf s) ∨ ∃ s, v = Double.inf s) →
      (u.mul u).add (v.mul v) = Double.inf false := by
    intro u v hu hv huv
    have hnu := Double.mul_self_nonNeg hu
    have hnv := Double.mul_self_nonNeg hv
    rcases huv with ⟨s, rfl⟩ | ⟨s, rfl⟩
    · cases hv2 : v.mul v with
      | fin b => simp [Double.mul, Double.add]
      | inf t =>
        rw [hv2] at hnv
        simp only [Double.NonNeg] at hnv
        subst hnv
        simp [Double.mul, Double.add]
      | nan => rw [hv2] at hnv; exact absurd hnv id
    · cases hu2 : u.mul u with
      | fin b => simp [Double.mul, Double.add]
      | inf t =>
        rw [hu2] at hnu
        simp only [Double.NonNeg] at hnu
        subst hnu
        simp [Double.mul, Double.add]
      | nan => rw [hu2] at hnu; exact absurd hnu id
  have h1 := orbit_one_noNaN (c := ⟨re, im⟩) ⟨hre, him⟩
  show ((orbit ⟨re, im⟩ 1)._real.mul (orbit ⟨re, im⟩ 1)._real).add
    ((orbit ⟨re, im⟩ 1)._imag.mul (orbit ⟨re, im⟩ 1)._imag) = Double.inf false
  apply key _ _ h1.1 h1.2
  simp only [orbit, Complex.zero, Complex.mul, Complex.add, h0, hs, ha]
  rcases hinf with ⟨s, rfl⟩ | ⟨s, rfl⟩
  · left
    exact ⟨s, by simp [Double.add]⟩
  · right
    exact ⟨s, by simp [Double.add]⟩

/-- For a NaN-free `c` the orbit is NaN-free as long as the guard has let it run. -/
theorem orbit_noNaN {c : Complex} (hc : c.noNaN) (k : Nat)
    (h : ∀ i, i < k → (orbit c i).sqmagnitude.le (Double.ofInt 4) = true) :
    (orbit c k).noNaN := by
  have hfin_or : (∃ p q, c = ⟨Double.fin p, Double.fin q⟩) ∨
      ((∃ s, c._real = Double.inf s) ∨ ∃ s, c._imag = Double.inf s) := by
    obtain ⟨re, im⟩ := c
    obtain ⟨hre, him⟩ := hc
    simp only at hre him
    cases re with
    | fin p =>
      cases im with
      | fin q => exact Or.inl ⟨p, q, rfl⟩
      | inf s => exact Or.inr (Or.inr ⟨s, rfl⟩)
      | nan => exact absurd rfl him
    | inf s => exact Or.inr (Or.inl ⟨s, rfl⟩)
    | nan => exact absurd rfl hre
  rcases hfin_or with ⟨p, q, rfl⟩ | hinf
  · exact orbit_noNaN_of_fin p q k h
  · match k, h with
    | 0, _ => exact Complex.zero_noNaN
    | 1, _ => exact orbit_one_noNaN hc
    | k + 2, h =>
      have h1 := h 1 (by omega)
      rw [orbit_one_sqmagnitude_of_inf hc hinf] at h1
      simp [Double.le, Double.ofInt] at h1

/-! ## C1 -/

/-- C1, as stated, fails at a NaN point: for `c = (NaN, 0)` and budget `2` the function
returns `1`, and `1` is neither the budget nor an index at which the squared magnitude of
the orbit is greater than `4` (it is NaN, and `NaN > 4` is false). -/
theorem getMandelbrotIterations_nan_not_escape :
    getMandelbrotIterations ⟨Double.nan, Double.fin 0⟩ 2 = 1 ∧
    ¬ ((1 : Int) = 2 ∨
      (orbit ⟨Double.nan, Double.fin 0⟩ 1).sqmagnitude.gt (Double.ofInt 4) = true) := by
  decide!

/-- C1 (amended to points without a NaN component): for every `c` without a NaN component
and every budget `N ≥ 0`, `getMandelbrotIterations c N` is the least `k` in `[0, N]` such
that `k = N` or the squared magnitude of `z_k` is greater than `4`, where `z₀ = 0` and
`z_{j+1} = z_j * z_j + c`: the result is at most `N`, it is `N` or an index at which the
squared magnitude exceeds `4`, and every earlier index `j` is below `N` and has squared
magnitude at most `4`. -/
theorem getMandelbrotIterations_least_escape (c : Complex) (N : Int) (hN : 0 ≤ N)
    (hc : c.noNaN) :
    ∃ k : Nat, getMandelbrotIterations c N = k ∧ (k : Int) ≤ N ∧
      ((k : Int) = N ∨ (orbit c k).sqmagnitude.gt (Double.ofInt 4) = true) ∧
      ∀ j : Nat, j < k →
        (j : Int) ≠ N ∧ (orbit c j).sqmagnitude.le (Double.ofInt 4) = true ∧
          (orbit c j).sqmagnitude.gt (Double.ofInt 4) = false := by
  obtain ⟨k, hk, hkN, hexit, hbelow⟩ := getMandelbrotIterations_spec c N hN
  refine ⟨k, hk, hkN, ?_, ?_⟩
  · rcases hexit with h | h
    · exact Or.inl h
    · right
      have hnn := Double.nonNeg_ne_nan (Complex.sqmagnitude_nonNeg (orbit_noNaN hc k hbelow))
      exact (Double.not_le_iff_gt hnn 4).mp h
  · intro j hj
    exact ⟨by omega, hbelow j hj, Double.gt_false_of_le (hbelow j hj)⟩

/-- C1 at the point `(-2, -1)` with budget `50`. -/
theorem getMandelbrotIterations_least_escape_witness :
    (0 : Int) ≤ 50 ∧ (⟨Double.fin (-2), Double.fin (-1)⟩ : Complex).noNaN ∧
    ∃ k : Nat, getMandelbrotIterations ⟨Double.fin (-2), Double.fin (-1)⟩ 50 = k ∧
      (k : Int) ≤ 50 ∧
      ((k : Int) = 50 ∨
        (orbit ⟨Double.fin (-2), Double.fin (-1)⟩ k).sqmagnitude.gt (Double.ofInt 4) = true) ∧
      ∀ j : Nat, j < k →
        (j : Int) ≠ 50 ∧
          (orbit ⟨Double.fin (-2), Double.fin (-1)⟩ j).sqmagnitude.le (Double.ofInt 4) = true ∧
          (orbit ⟨Double.fin (-2), Double.fin (-1)⟩ j).sqmagnitude.gt (Double.ofInt 4) = false :=
  ⟨by decide, by decide, getMandelbrotIterations_least_escape _ 50 (by decide) (by decide)⟩

/-! ## Loops over the grid -/

theorem fillRow_length (f : Int → uint16) (k : Nat) (row : List uint16) :
    (fillRow f k row).length = row.length := by
  induction k with
  | zero => rfl
  | succ k ih => simp [fillRow, forLoopUpTo] at ih ⊢; exact ih

theorem fillRow_getElem? (f : Int → uint16) (k : Nat) (row : List uint16) (j : Nat) :
    (fillRow f k row)[j]? = if j < k ∧ j < row.length then some (f j) else row[j]? := by
  induction k with
  | zero => simp [fillRow, forLoopUpTo]
  | succ k ih =>
    have hstep : fillRow f (k + 1) row = (fillRow f k row).set k (f k) := by
      simp [fillRow, forLoopUpTo]
    rw [hstep, List.getElem?_set, ih, fillRow_length]
    by_cases hkj : k = j
    · subst hkj
      by_cases hlen : k < row.length
      · simp [hlen]
      · simp [hlen, List.getElem?_eq_none (not_lt.mp hlen)]
    · have h1 : j < k + 1 ↔ j < k := by omega
      simp [hkj, h1]

namespace Array2D

theorem read_natCast (g : Array2D) (i j : Nat) :
    g.read i j = g[i]?.bind (fun row => row[j]?) := by
  simp [read]

theorem write_getElem? (g : Array2D) (i j : Nat) (v : uint16) (i' : Nat) :
    (g.write i j v)[i']? = if i' = i then g[i]?.map (fun row => row.set j v) else g[i']? := by
  simp only [write, Int.toNat_ofNat, List.getElem?_set]
  by_cases hii : i = i'
  · subst hii
    by_cases hi : i < g.length
    · simp [hi, List.getD_eq_getElem _ _ hi, List.getElem?_eq_getElem hi]
    · simp [hi, List.getElem?_eq_none (not_lt.mp hi)]
  · have : ¬ i' = i := fun h => hii h.symm
    simp [hii, this]

/-- Rows after the first `k` passes of a loop that stores `f j` in cell `(i, j)`. -/
theorem rowLoop_getElem? (g : Array2D) (i : Nat) (f : Int → uint16) (k i' : Nat) :
    (forLoopUpTo (fun (j : Int) (a : Array2D) => a.write i j (f j)) k g)[i']? =
      if i' = i then g[i]?.map (fillRow f k) else g[i']? := by
  induction k with
  | zero =>
    by_cases h : i' = i
    · subst h
      cases hg : g[i']? <;> simp [forLoopUpTo, fillRow, hg]
    · simp [forLoopUpTo, h]
  | succ k ih =>
    simp only [forLoopUpTo]
    rw [write_getElem?]
    by_cases h : i' = i
    · subst h
      simp only [if_true] at ih ⊢
      rw [ih, Option.map_map]
      rfl
    · simp only [h, if_false] at ih ⊢
      exact ih


/-- Rows after the first `k` passes of the outer loop of a generation pass that stores
`f x y` in cell `(y, x)`. -/
theorem gridLoop_getElem? (g : Array2D) (width : Int) (f : Int → Int → uint16) (k i' : Nat) :
    (forLoopUpTo
        (fun (y : Int) (map : Array2D) =>
          forLoop width (fun (x : Int) (map : Array2D) => map.write y x (f x y)) map) k g)[i']? =
      if i' < k then g[i']?.map (fillRow (fun x => f x i') width.toNat) else g[i']? := by
  induction k with
  | zero => simp [forLoopUpTo]
  | succ k ih =>
    simp only [forLoop] at ih ⊢
    simp only [forLoopUpTo]
    rw [rowLoop_getElem? _ k (fun x => f x k)]
    by_cases h : i' = k
    · subst h
      have hlt : ¬ i' < i' := lt_irrefl _
      simp only [hlt, if_false] at ih
      simp [ih]
    · have h1 : i' < k + 1 ↔ i' < k := by omega
      simp only [h, if_false, h1]
      exact ih

/-- Cells after a whole pass that stores `f x y` in every cell `(y, x)` of a grid of
`h` rows of `w` cells. -/
theorem gridLoop_read {g : Array2D} {h : Nat} {width : Int} (hg : g.Shape h width.toNat)
    (f : Int → Int → uint16) (x y : Int) (hx : 0 ≤ x) (hxw : x < width) (hy : 0 ≤ y)
    (hyh : y.toNat < h) :
    (forLoopUpTo
        (fun (y : Int) (map : Array2D) =>
          forLoop width (fun (x : Int) (map : Array2D) => map.write y x (f x y)) map) h g).read
      y x = some (f x y) := by
  obtain ⟨hlen, hrows⟩ := hg
  have hyl : y.toNat < g.length := hlen ▸ hyh
  have hrow : (g[y.toNat]).length = width.toNat := hrows _ _ (List.getElem?_eq_getElem hyl)
  have hxn : x.toNat < width.toNat := by omega
  simp only [read, hx, hy, and_self, if_true, gridLoop_getElem?, hyh,
    List.getElem?_eq_getElem hyl, Option.map_some', Option.some_bind, fillRow_getElem?,
    hrow, hxn, Int.toNat_of_nonneg hx, Int.toNat_of_nonneg hy]


theorem rowLoop_length (g : Array2D) (i : Int) (f : Int → uint16) (k : Nat) :
    (forLoopUpTo (fun (j : Int) (a : Array2D) => a.write i j (f j)) k g).length = g.length := by
  induction k with
  | zero => rfl
  | succ k ih => simpa [forLoopUpTo, write] using ih

theorem gridLoop_length (g : Array2D) (width : Int) (f : Int → Int → uint16) (k : Nat) :
    (forLoopUpTo
        (fun (y : Int) (map : Array2D) =>
          forLoop width (fun (x : Int) (map : Array2D) => map.write y x (f x y)) map)
        k g).length = g.length := by
  induction k with
  | zero => rfl
  | succ k ih =>
    simp only [forLoop] at ih ⊢
    simp only [forLoopUpTo]
    rw [rowLoop_length]
    exact ih

/-- A generation pass keeps the dimensions of the grid. -/
theorem gridLoop_shape {g : Array2D} {h w : Nat} (hg : g.Shape h w) (width : Int)
    (f : Int → Int → uint16) (k : Nat) :
    (forLoopUpTo
        (fun (y : Int) (map : Array2D) =>
          forLoop width (fun (x : Int) (map : Array2D) => map.write y x (f x y)) map)
        k g).Shape h w := by
  obtain ⟨hlen, hrows⟩ := hg
  refine ⟨by rw [gridLoop_length, hlen], ?_⟩
  intro i row hrow
  rw [gridLoop_getElem?] at hrow
  split_ifs at hrow
  · cases hgi : g[i]? with
    | none => simp [hgi] at hrow
    | some row0 =>
      simp only [hgi, Option.map_some', Option.some.injEq] at hrow
      rw [← hrow, fillRow_length]
      exact hrows i row0 hgi
  · exact hrows i row hrow

end Array2D

/-! ## Allocation -/

theorem fillRow_zero_uninitialised (w : Nat) :
    fillRow (fun _ => 0) w (List.replicate w uninitialised) = List.replicate w 0 := by
  apply List.ext_getElem?
  intro j
  rw [fillRow_getElem?]
  by_cases hj : j < w
  · simp [hj, List.getElem?_replicate]
  · simp [hj, List.getElem?_replicate]

/-- Rows after the first `k` passes of the outer loop of the allocation. -/
theorem allocateLoop_getElem? (h : Nat) (width : Int) (k : Nat) (hk : k ≤ h) :
    ∀ i' : Nat,
      (forLoopUpTo
          (fun (i : Int) (array : Array2D) =>
            forLoop width (fun (j : Int) (array : Array2D) => array.write i j 0)
              (array.set i.toNat (List.replicate width.toNat uninitialised)))
          k (List.replicate h []))[i']? =
        if i' < k then some (List.replicate width.toNat 0)
        else (List.replicate h ([] : List uint16))[i']? := by
  induction k with
  | zero => simp [forLoopUpTo]
  | succ k ih =>
    have ih := ih (by omega)
    intro i'
    simp only [forLoop] at ih ⊢
    simp only [forLoopUpTo]
    rw [Array2D.rowLoop_getElem? _ k (fun _ => 0)]
    have hkh : k < h := by omega
    have hlen : k < (forLoopUpTo
        (fun (i : Int) (array : Array2D) =>
          forLoopUpTo (fun (j : Int) (array : Array2D) => array.write i j 0) width.toNat
            (array.set i.toNat (List.replicate width.toNat uninitialised)))
        k (List.replicate h [])).length := by
      have hk' := ih k
      simp only [lt_irrefl, if_false, List.getElem?_replicate, hkh, if_true] at hk'
      by_contra hcon
      rw [List.getElem?_eq_none (not_lt.mp hcon)] at hk'
      exact Option.noConfusion hk'
    by_cases hik : i' = k
    · subst hik
      simp [List.getElem?_set, hlen, fillRow_zero_uninitialised]
    · have h1 : i' < k + 1 ↔ i' < k := by omega
      have h2 : ¬ k = i' := fun h => hik h.symm
      simp only [hik, if_false, Int.toNat_ofNat, List.getElem?_set, h2, h1]
      exact ih i'

/-- The allocation returns `height` rows of `width` zeros. -/
theorem allocateBidimensionalDynamicArray_eq (height width : Int) :
    allocateBidimensionalDynamicArray height width =
      List.replicate height.toNat (List.replicate width.toNat 0) := by
  apply List.ext_getElem?
  intro i
  rw [allocateBidimensionalDynamicArray, forLoop, allocateLoop_getElem? _ _ _ (le_refl _)]
  by_cases hi : i < height.toNat
  · simp [hi, List.getElem?_replicate]
  · simp [hi, List.getElem?_replicate]

/-! ## The generator -/

/-- The loop of the private member is the loop of the free function. -/
theorem Mandelbrot.memberLoop_eq (c : Complex) (N : Int) :
    ∀ (left : Nat) (i : Int) (z : Complex),
      Mandelbrot.memberLoop c N left i z = mandelbrotLoop c N left i z := by
  intro left
  induction left with
  | zero => intro i z; rfl
  | succ left ih =>
    intro i z
    simp only [Mandelbrot.memberLoop, mandelbrotLoop, ih]

/-- The private member returns the count of the free function converted to `uint16`. -/
theorem Mandelbrot.getMandelbrotIterations_eq (c : Complex) (N : Int) :
    Mandelbrot.getMandelbrotIterations c N = toUint16 (fractals.getMandelbrotIterations c N) := by
  simp only [Mandelbrot.getMandelbrotIterations, fractals.getMandelbrotIterations,
    Mandelbrot.memberLoop_eq]

/-- The count of the free function lies between `0` and the budget. -/
theorem getMandelbrotIterations_bounds (c : Complex) (N : Int) :
    0 ≤ getMandelbrotIterations c N ∧ getMandelbrotIterations c N ≤ max N 0 := by
  by_cases hN : 0 ≤ N
  · obtain ⟨k, hk, hkN, -, -⟩ := getMandelbrotIterations_spec c N hN
    rw [hk]
    exact ⟨Int.ofNat_nonneg k, le_max_of_le_left hkN⟩
  · have h0 : N.toNat = 0 := by omega
    simp [getMandelbrotIterations, h0, mandelbrotLoop]

theorem Mandelbrot.new_wellFormed (height width : Int) : (Mandelbrot.new height width).WellFormed := by
  simp only [Mandelbrot.WellFormed, Mandelbrot.new, allocateBidimensionalDynamicArray_eq,
    Array2D.Shape, List.length_replicate, List.getElem?_replicate, true_and]
  intro i row h
  split_ifs at h
  simp only [Option.some.injEq] at h
  simp [← h]

theorem Mandelbrot.newWithBounds_wellFormed (height width : Int) (upperBounds lowerBounds : Complex) :
    (Mandelbrot.newWithBounds height width upperBounds lowerBounds).WellFormed :=
  Mandelbrot.new_wellFormed height width

theorem Mandelbrot.loadIterationMap_wellFormed {m : Mandelbrot} (hm : m.WellFormed) (N : Int) :
    (m.loadIterationMap N).WellFormed := by
  simp only [Mandelbrot.WellFormed, Mandelbrot.loadIterationMap, forLoop]
  exact Array2D.gridLoop_shape hm m._width _ _

/-- After a generation pass, a cell holds what the private member returns for its pixel. -/
theorem Mandelbrot.loadIterationMap_read {m : Mandelbrot} (hm : m.WellFormed) (N x y : Int)
    (hx : 0 ≤ x) (hxw : x < m._width) (hy : 0 ≤ y) (hyh : y < m._height) :
    (m.loadIterationMap N).getIterationFromMap x y =
      some ((m.getMandelbrotIterationsAt x y N : uint16) : Int) := by
  have h := Array2D.gridLoop_read hm (fun x y => m.getMandelbrotIterationsAt x y N) x y hx hxw
    hy (by omega)
  simp only [forLoop] at h
  simp only [Mandelbrot.getIterationFromMap, Mandelbrot.loadIterationMap, forLoop, h]
  rfl

/-! ## The orbit of the origin -/

theorem Complex.zero_step : (Complex.zero.mul Complex.zero).add Complex.zero = Complex.zero := by
  decide!

theorem Complex.zero_sqmagnitude_le :
    Complex.zero.sqmagnitude.le (Double.ofInt 4) = true := by
  decide!

/-- At the origin the loop uses up the budget that is left. -/
theorem mandelbrotLoop_origin (N : Int) :
    ∀ (left : Nat) (i : Int), i + left ≤ N →
      mandelbrotLoop Complex.zero N left i Complex.zero = i + left := by
  intro left
  induction left with
  | zero => intro i _; simp [mandelbrotLoop]
  | succ left ih =>
    intro i hi
    have hg : i < N ∧ Complex.zero.sqmagnitude.le (Double.ofInt 4) = true :=
      ⟨by push_cast at hi; omega, Complex.zero_sqmagnitude_le⟩
    rw [mandelbrotLoop, if_pos hg, Complex.zero_step, ih (i + 1) (by push_cast at hi ⊢; omega)]
    push_cast
    ring

theorem getMandelbrotIterations_origin (N : Int) (hN : 0 ≤ N) :
    getMandelbrotIterations Complex.zero N = N := by
  rw [getMandelbrotIterations, mandelbrotLoop_origin N N.toNat 0 (by simp [Int.toNat_of_nonneg hN])]
  simp [Int.toNat_of_nonneg hN]

/-! ## C2 -/

/-- C2, as stated, fails for a budget that does not fit `uint16`: in the generator
`Mandelbrot(2, 3)` the pixel `(2, 1)` is the origin, whose count for the budget `65536` is
`65536`, and after `loadIterationMap(65536)` the cell holds `0`. -/
theorem loadIterationMap_truncates_count :
    ((Mandelbrot.new 2 3).loadIterationMap 65536).getIterationFromMap 2 1 = some 0 ∧
    getMandelbrotIterations
      (mapPixelToComplex 2 1 (Mandelbrot.new 2 3)._width (Mandelbrot.new 2 3)._height
        (Mandelbrot.new 2 3)._lowerBounds (Mandelbrot.new 2 3)._upperBounds) 65536 = 65536 := by
  have hc : mapPixelToComplex 2 1 (Mandelbrot.new 2 3)._width (Mandelbrot.new 2 3)._height
      (Mandelbrot.new 2 3)._lowerBounds (Mandelbrot.new 2 3)._upperBounds = Complex.zero := by
    decide!
  constructor
  · rw [Mandelbrot.loadIterationMap_read (Mandelbrot.new_wellFormed 2 3) 65536 2 1 (by decide)
      (by decide) (by decide) (by decide)]
    rw [Mandelbrot.getMandelbrotIterationsAt, hc, Mandelbrot.getMandelbrotIterations_eq,
      getMandelbrotIterations_origin 65536 (by decide)]
    rfl
  · rw [hc]
    exact getMandelbrotIterations_origin 65536 (by decide)

/-- C2 (amended to budgets that fit `uint16`): for every generator whose grid has its
dimensions, every budget `N` and every pixel `0 ≤ x < width`, `0 ≤ y < height`, after
`loadIterationMap(N)` the accessor `getIterationFromMap(x, y)` returns the escape-time count
`getMandelbrotIterations(mapPixelToComplex(x, y, width, height, min, max), N)` of the pixel
reduced modulo `2^16`, which is the count itself when `N ≤ 65535`. -/
theorem loadIterationMap_getIterationFromMap (m : Mandelbrot) (hm : m.WellFormed)
    (N x y : Int) (hx : 0 ≤ x) (hxw : x < m._width) (hy : 0 ≤ y) (hyh : y < m._height) :
    (m.loadIterationMap N).getIterationFromMap x y =
        some (getMandelbrotIterations
          (mapPixelToComplex x y m._width m._height m._lowerBounds m._upperBounds) N % 65536) ∧
    (N ≤ 65535 →
      (m.loadIterationMap N).getIterationFromMap x y =
        some (getMandelbrotIterations
          (mapPixelToComplex x y m._width m._height m._lowerBounds m._upperBounds) N)) := by
  have hread := Mandelbrot.loadIterationMap_read hm N x y hx hxw hy hyh
  rw [Mandelbrot.getMandelbrotIterationsAt, Mandelbrot.getMandelbrotIterations_eq] at hread
  have hb := getMandelbrotIterations_bounds
    (mapPixelToComplex x y m._width m._height m._lowerBounds m._upperBounds) N
  have hmod : ((toUint16 (getMandelbrotIterations
      (mapPixelToComplex x y m._width m._height m._lowerBounds m._upperBounds) N) : Nat) : Int) =
      getMandelbrotIterations
        (mapPixelToComplex x y m._width m._height m._lowerBounds m._upperBounds) N % 65536 := by
    rw [toUint16]
    exact Int.toNat_of_nonneg (Int.emod_nonneg _ (by decide))
  refine ⟨by rw [hread, hmod], ?_⟩
  intro hN
  rw [hread, hmod, Int.emod_eq_of_lt hb.1 (by omega)]

/-- C2 at the centre pixel of the generator `Mandelbrot(4, 4)` with budget `50`. -/
theorem loadIterationMap_getIterationFromMap_witness :
    (Mandelbrot.new 4 4).WellFormed ∧ (50 : Int) ≤ 65535 ∧
    ((Mandelbrot.new 4 4).loadIterationMap 50).getIterationFromMap 2 2 =
      some (getMandelbrotIterations
        (mapPixelToComplex 2 2 (Mandelbrot.new 4 4)._width (Mandelbrot.new 4 4)._height
          (Mandelbrot.new 4 4)._lowerBounds (Mandelbrot.new 4 4)._upperBounds) 50) :=
  ⟨Mandelbrot.new_wellFormed 4 4, by decide,
    (loadIterationMap_getIterationFromMap (Mandelbrot.new 4 4) (Mandelbrot.new_wellFormed 4 4)
      50 2 2 (by decide) (by decide) (by decide) (by decide)).2 (by decide)⟩

/-! ## The viewport mapper -/

/-- One coordinate of `mapPixelToComplex` when none of its four operations rounds. -/
theorem mapCoordinate_exact (x width : Int) (a b : ℚ) (hw : width ≠ 0)
    (h1 : Representable (b - a)) (h2 : Representable ((b - a) / width))
    (h3 : Representable (x * ((b - a) / width)))
    (h4 : Representable (x * ((b - a) / width) + a)) :
    ((Double.ofInt x).mul (((Double.fin b).sub (Double.fin a)).div (Double.ofInt width))).add
      (Double.fin a) = Double.fin (x * (b - a) / width + a) := by
  have hw' : (width : ℚ) ≠ 0 := by exact_mod_cast hw
  have e1 : (Double.fin b).sub (Double.fin a) = Double.fin (b - a) := h1
  have e2 : (Double.fin (b - a)).div (Double.ofInt width) = Double.fin ((b - a) / width) := by
    simp only [Double.div, Double.ofInt, hw', if_false]
    exact h2
  have e3 : (Double.ofInt x).mul (Double.fin ((b - a) / width)) =
      Double.fin (x * ((b - a) / width)) := h3
  have e4 : (Double.fin (x * ((b - a) / width))).add (Double.fin a) =
      Double.fin (x * ((b - a) / width) + a) := h4
  rw [e1, e2, e3, e4, mul_div_assoc]

/-! ## C3 -/

/-- C3, as stated, fails: for the pixel column `3` of an image `10` wide over the viewport
`[0, 1]` the real part is `3 * (1/10)` in doubles, `0.30000000000000004`, which is neither
the number `3 * (1 - 0) / 10 + 0 = 3/10` nor the double `0.3` that the operations give in
the order the claim writes them. -/
theorem mapPixelToComplex_real_rounds :
    (mapPixelToComplex 3 0 10 10 ⟨Double.fin 0, Double.fin 0⟩ ⟨Double.fin 1, Double.fin 1⟩).real
      = Double.fin (1351079888211149 / 4503599627370496) ∧
    (mapPixelToComplex 3 0 10 10 ⟨Double.fin 0, Double.fin 0⟩ ⟨Double.fin 1, Double.fin 1⟩).real
      ≠ Double.fin (3 * (1 - 0) / 10 + 0) ∧
    (mapPixelToComplex 3 0 10 10 ⟨Double.fin 0, Double.fin 0⟩ ⟨Double.fin 1, Double.fin 1⟩).real
      ≠ ((((Double.ofInt 3).mul ((Double.fin 1).sub (Double.fin 0))).div (Double.ofInt 10)).add
          (Double.fin 0)) := by
  decide!

/-- C3 (amended): `mapPixelToComplex` computes `x * ((max.real - min.real) / width) + min.real`
and `y * ((max.imag - min.imag) / height) + min.imag` in doubles, the quotient first and every
operation rounded; for `width ≠ 0`, `height ≠ 0` and a finite viewport, whenever none of
these operations rounds, the real part is the number `x * (max.real - min.real) / width +
min.real` and the imaginary part the number `y * (max.imag - min.imag) / height + min.imag`,
with no clamping. -/
theorem mapPixelToComplex_formula (x y width height : Int) (a a' b b' : ℚ)
    (hw : width ≠ 0) (hh : height ≠ 0)
    (hr1 : Representable (b - a)) (hr2 : Representable ((b - a) / width))
    (hr3 : Representable (x * ((b - a) / width)))
    (hr4 : Representable (x * ((b - a) / width) + a))
    (hi1 : Representable (b' - a')) (hi2 : Representable ((b' - a') / height))
    (hi3 : Representable (y * ((b' - a') / height)))
    (hi4 : Representable (y * ((b' - a') / height) + a')) :
    (mapPixelToComplex x y width height ⟨Double.fin a, Double.fin a'⟩
        ⟨Double.fin b, Double.fin b'⟩).real =
      ((Double.ofInt x).mul (((Double.fin b).sub (Double.fin a)).div (Double.ofInt width))).add
        (Double.fin a) ∧
    (mapPixelToComplex x y width height ⟨Double.fin a, Double.fin a'⟩
        ⟨Double.fin b, Double.fin b'⟩).imag =
      ((Double.ofInt y).mul (((Double.fin b').sub (Double.fin a')).div (Double.ofInt height))).add
        (Double.fin a') ∧
    mapPixelToComplex x y width height ⟨Double.fin a, Double.fin a'⟩
        ⟨Double.fin b, Double.fin b'⟩ =
      ⟨Double.fin (x * (b - a) / width + a), Double.fin (y * (b' - a') / height + a')⟩ := by
  refine ⟨rfl, rfl, ?_⟩
  simp only [mapPixelToComplex, Complex.real, Complex.imag]
  rw [mapCoordinate_exact x width a b hw hr1 hr2 hr3 hr4,
    mapCoordinate_exact y height a' b' hh hi1 hi2 hi3 hi4]

/-- C3 at the pixel `(1, 3)` of a `4 × 4` image over the viewport `(-2, -1)`, `(1, 1)`. -/
theorem mapPixelToComplex_formula_witness :
    mapPixelToComplex 1 3 4 4 ⟨Double.fin (-2), Double.fin (-1)⟩ ⟨Double.fin 1, Double.fin 1⟩ =
      ⟨Double.fin (((1 : Int) : ℚ) * (1 - (-2)) / ((4 : Int) : ℚ) + (-2)),
       Double.fin (((3 : Int) : ℚ) * (1 - (-1)) / ((4 : Int) : ℚ) + (-1))⟩ :=
  (mapPixelToComplex_formula 1 3 4 4 (-2) (-1) 1 1 (by decide) (by decide)
    (by decide!) (by decide!) (by decide!) (by decide!)
    (by decide!) (by decide!) (by decide!) (by decide!)).2.2

/-- The first pixel of an axis maps to the lower bound of the axis, when the bound is a
double and the pixel step is finite. -/
theorem mapCoordinate_zero (width : Int) (a e : ℚ) (hi : Double) (ha : Representable a)
    (he : (hi.sub (Double.fin a)).div (Double.ofInt width) = Double.fin e) :
    ((Double.ofInt 0).mul ((hi.sub (Double.fin a)).div (Double.ofInt width))).add (Double.fin a)
      = Double.fin a := by
  rw [he]
  simp only [Double.ofInt, Double.mul, Double.add, Int.cast_zero, zero_mul, zero_add,
    roundQ_zero]
  exact ha

/-! ## C4 -/

/-- C4, as stated, fails in both halves.  For a `49 × 49` image over the viewport `(0, 0)`,
`(1, 1)`, the pixel `(49, 49)` maps to `49 * (1/49)` on both axes, which in doubles is
`0.9999999999999999` and not `1`.  And over the viewport from `(-M, 0)` to `(M, 1)`, `M` the
largest finite double, the extent `M - (-M)` overflows to `+∞`, so the pixel `(0, 0)` has
the real part `0 * ∞ + (-M)`, a NaN, and does not map to `min`. -/
theorem mapPixelToComplex_corner_not_max :
    (0 : Int) < 49 ∧ Double.gt (Double.fin 1) (Double.fin 0) = true ∧
    mapPixelToComplex 49 49 49 49 ⟨Double.fin 0, Double.fin 0⟩ ⟨Double.fin 1, Double.fin 1⟩ =
      ⟨Double.fin (9007199254740991 / 9007199254740992),
       Double.fin (9007199254740991 / 9007199254740992)⟩ ∧
    mapPixelToComplex 49 49 49 49 ⟨Double.fin 0, Double.fin 0⟩ ⟨Double.fin 1, Double.fin 1⟩ ≠
      ⟨Double.fin 1, Double.fin 1⟩ ∧
    Representable (pow2 1024 - pow2 971) ∧ Representable (-(pow2 1024 - pow2 971)) ∧
    Double.gt (Double.fin (pow2 1024 - pow2 971)) (Double.fin (-(pow2 1024 - pow2 971))) = true ∧
    mapPixelToComplex 0 0 49 49 ⟨Double.fin (-(pow2 1024 - pow2 971)), Double.fin 0⟩
      ⟨Double.fin (pow2 1024 - pow2 971), Double.fin 1⟩ = ⟨Double.nan, Double.fin 0⟩ := by
  decide!

/-- C4 (amended): for every `width > 0`, `height > 0` and viewport whose `min` is a pair of
finite doubles and whose pixel steps `(max.real - min.real) / width` and
`(max.imag - min.imag) / height` are finite, `mapPixelToComplex(0, 0, ...)` equals `min`
exactly; and `mapPixelToComplex(width, height, ...)` equals `max` exactly whenever `max` is
finite and none of the operations rounds. -/
theorem mapPixelToComplex_corners (width height : Int) (a a' e e' : ℚ) (max : Complex)
    (hw : 0 < width) (hh : 0 < height) (ha : Representable a) (ha' : Representable a')
    (he : (max.real.sub (Double.fin a)).div (Double.ofInt width) = Double.fin e)
    (he' : (max.imag.sub (Double.fin a')).div (Double.ofInt height) = Double.fin e') :
    mapPixelToComplex 0 0 width height ⟨Double.fin a, Double.fin a'⟩ max =
      ⟨Double.fin a, Double.fin a'⟩ ∧
    ∀ b b' : ℚ, max = ⟨Double.fin b, Double.fin b'⟩ →
      Representable (b - a) → Representable ((b - a) / width) →
      Representable (width * ((b - a) / width)) →
      Representable (width * ((b - a) / width) + a) →
      Representable (b' - a') → Representable ((b' - a') / height) →
      Representable (height * ((b' - a') / height)) →
      Representable (height * ((b' - a') / height) + a') →
      mapPixelToComplex width height width height ⟨Double.fin a, Double.fin a'⟩ max = max := by
  constructor
  · simp only [mapPixelToComplex, Complex.real, Complex.imag] at he he' ⊢
    rw [mapCoordinate_zero width a e _ ha he, mapCoordinate_zero height a' e' _ ha' he']
  · rintro b b' rfl hr1 hr2 hr3 hr4 hi1 hi2 hi3 hi4
    have hwq : (width : ℚ) ≠ 0 := by exact_mod_cast hw.ne'
    have hhq : (height : ℚ) ≠ 0 := by exact_mod_cast hh.ne'
    simp only [mapPixelToComplex, Complex.real, Complex.imag]
    rw [mapCoordinate_exact width width a b hw.ne' hr1 hr2 hr3 hr4,
      mapCoordinate_exact height height a' b' hh.ne' hi1 hi2 hi3 hi4]
    have h1 : (width : ℚ) * (b - a) / width + a = b := by field_simp
    have h2 : (height : ℚ) * (b' - a') / height + a' = b' := by field_simp
    rw [h1, h2]

/-- C4 for a `4 × 4` image over the viewport `(-2, -1)`, `(1, 1)`. -/
theorem mapPixelToComplex_corners_witness :
    mapPixelToComplex 0 0 4 4 ⟨Double.fin (-2), Double.fin (-1)⟩ ⟨Double.fin 1, Double.fin 1⟩ =
      ⟨Double.fin (-2), Double.fin (-1)⟩ ∧
    mapPixelToComplex 4 4 4 4 ⟨Double.fin (-2), Double.fin (-1)⟩ ⟨Double.fin 1, Double.fin 1⟩ =
      ⟨Double.fin 1, Double.fin 1⟩ :=
  have h := mapPixelToComplex_corners 4 4 (-2) (-1) (3 / 4) (1 / 2)
    ⟨Double.fin 1, Double.fin 1⟩ (by decide) (by decide) (by decide!) (by decide!)
    (by decide!) (by decide!)
  ⟨h.1, h.2 1 1 rfl (by decide!) (by decide!) (by decide!) (by decide!) (by decide!)
    (by decide!) (by decide!) (by decide!)⟩

/-! ## C5 -/

/-- C5: for every budget `N ≥ 0`, `getMandelbrotIterations(Complex(0, 0), N)` returns `N`:
every point of the orbit of the origin is the origin, whose squared magnitude passes the
guard. -/
theorem getMandelbrotIterations_zero (N : Int) (hN : 0 ≤ N) :
    getMandelbrotIterations ⟨Double.fin 0, Double.fin 0⟩ N = N ∧
    ∀ j : Nat, orbit ⟨Double.fin 0, Double.fin 0⟩ j = ⟨Double.fin 0, Double.fin 0⟩ ∧
      (orbit ⟨Double.fin 0, Double.fin 0⟩ j).sqmagnitude.le (Double.ofInt 4) = true := by
  refine ⟨getMandelbrotIterations_origin N hN, ?_⟩
  have horbit : ∀ j : Nat, orbit Complex.zero j = Complex.zero := by
    intro j
    induction j with
    | zero => rfl
    | succ j ih => rw [orbit, ih, Complex.zero_step]
  intro j
  have h := horbit j
  rw [Complex.zero] at h
  exact ⟨h, by rw [h]; exact Complex.zero_sqmagnitude_le⟩

/-- C5 at the budget `1000`. -/
theorem getMandelbrotIterations_zero_witness :
    getMandelbrotIterations ⟨Double.fin 0, Double.fin 0⟩ 1000 = 1000 :=
  (getMandelbrotIterations_zero 1000 (by decide)).1

/-! ## C6 -/

namespace Double

theorem zero_add_of_isDouble {x : Double} (hx : x.IsDouble) : (fin 0).add x = x := by
  cases x with
  | fin a =>
    simp only [add, zero_add]
    exact hx
  | inf s => rfl
  | nan => rfl

theorem le_false_of_gt {x y : Double} (h : x.gt y = true) : x.le y = false := by
  cases hle : x.le y with
  | false => rfl
  | true => rw [gt_false_of_le hle] at h; exact Bool.noConfusion h

end Double

/-- The first point of the orbit of a point `c` with double components is `c`. -/
theorem first_step_eq {c : Complex} (hre : c._real.IsDouble) (him : c._imag.IsDouble) :
    (Complex.zero.mul Complex.zero).add c = c := by
  obtain ⟨re, im⟩ := c
  have h0 : (Double.fin 0).mul (Double.fin 0) = Double.fin 0 := by simp [Double.mul, roundQ_zero]
  have hs : (Double.fin 0).sub (Double.fin 0) = Double.fin 0 := by simp [Double.sub, roundQ_zero]
  have ha : (Double.fin 0).add (Double.fin 0) = Double.fin 0 := by simp [Double.add, roundQ_zero]
  simp only [Complex.zero, Complex.mul, Complex.add, h0, hs, ha, Double.zero_add_of_isDouble hre,
    Double.zero_add_of_isDouble him]

/-- C6: for every budget `N ≥ 1` and every complex `c` (a pair of doubles) whose squared
magnitude is greater than `4`, `getMandelbrotIterations(c, N)` returns `1`. -/
theorem getMandelbrotIterations_outside (c : Complex) (N : Int) (hN : 1 ≤ N)
    (hre : c._real.IsDouble) (him : c._imag.IsDouble)
    (h : c.sqmagnitude.gt (Double.ofInt 4) = true) :
    getMandelbrotIterations c N = 1 := by
  obtain ⟨n, hn⟩ : ∃ n : Nat, N.toNat = n + 1 := ⟨N.toNat - 1, by omega⟩
  have hg : (0 : Int) < N ∧ Complex.zero.sqmagnitude.le (Double.ofInt 4) = true :=
    ⟨by omega, Complex.zero_sqmagnitude_le⟩
  have hle : ¬ ((0 : Int) + 1 < N ∧ c.sqmagnitude.le (Double.ofInt 4) = true) := by
    rw [Double.le_false_of_gt h]
    simp
  rw [getMandelbrotIterations, hn, mandelbrotLoop, if_pos hg, first_step_eq hre him]
  cases n with
  | zero => rfl
  | succ n => rw [mandelbrotLoop, if_neg hle]; rfl

/-- C6 at the point `(-2, -1)`, whose squared magnitude is `5`, with budget `50`. -/
theorem getMandelbrotIterations_outside_witness :
    (⟨Double.fin (-2), Double.fin (-1)⟩ : Complex).sqmagnitude = Double.fin 5 ∧
    getMandelbrotIterations ⟨Double.fin (-2), Double.fin (-1)⟩ 50 = 1 :=
  ⟨by decide!, getMandelbrotIterations_outside _ 50 (by decide)
    (show Representable (-2) by decide!) (show Representable (-1) by decide!) (by decide!)⟩

/-! ## C7 -/

/-- C7: in the generator `Mandelbrot(4, 4)`, whose viewport is `(-2, -1)`, `(1, 1)`, after
`loadIterationMap(50)` the cell of the pixel `(0, 0)`, which maps to `(-2, -1)`, holds `1`,
a count that is not zero and below `50`, and the cell of the centre pixel `(2, 2)`, which
maps to `(-0.5, 0)`, holds the budget `50`. -/
theorem loadIterationMap_four_by_four :
    (Mandelbrot.new 4 4)._lowerBounds = ⟨Double.fin (-2), Double.fin (-1)⟩ ∧
    (Mandelbrot.new 4 4)._upperBounds = ⟨Double.fin 1, Double.fin 1⟩ ∧
    mapPixelToComplex 0 0 4 4 (Mandelbrot.new 4 4)._lowerBounds (Mandelbrot.new 4 4)._upperBounds
      = ⟨Double.fin (-2), Double.fin (-1)⟩ ∧
    mapPixelToComplex 2 2 4 4 (Mandelbrot.new 4 4)._lowerBounds (Mandelbrot.new 4 4)._upperBounds
      = ⟨Double.fin (-1 / 2), Double.fin 0⟩ ∧
    (∃ k : Int, ((Mandelbrot.new 4 4).loadIterationMap 50).getIterationFromMap 0 0 = some k ∧
      k ≠ 0 ∧ k < 50) ∧
    ((Mandelbrot.new 4 4).loadIterationMap 50).getIterationFromMap 2 2 = some 50 := by
  refine ⟨by decide!, by decide!, by decide!, by decide!, ⟨1, by decide!, by decide, by decide⟩,
    by decide!⟩

/-! ## C8 -/

/-- In the generator that `printImage` builds, `_lowerBounds`, the corner that the pixel
`(0, 0)` is mapped from, is the derived `MAX`, and `_upperBounds` is the derived `MIN`. -/
theorem printImage_bounds (point : Complex) (scale : Double) (upperBounds lowerBounds : Complex)
    (image_width image_height max_iterations : Int) :
    (Mandelbrot.printImage point scale upperBounds lowerBounds image_width image_height
        max_iterations)._lowerBounds = Mandelbrot.printImage.MAX point scale upperBounds ∧
    (Mandelbrot.printImage point scale upperBounds lowerBounds image_width image_height
        max_iterations)._upperBounds = Mandelbrot.printImage.MIN point scale lowerBounds :=
  ⟨rfl, rfl⟩

/-- C8 fails on the code: for the centre `(0, 0)`, scale `1`, upper bounds `(1, 1)` and lower
bounds `(-2, -1)` on a `4 × 4` image, `newMin` is `(-2, -1)` and `newMax` is `(1, 1)`, and
in the generator that `printImage` builds the pixel `(0, 0)` maps to `(1, 1)` and the
viewport maximum is `(-2, -1)`. -/
theorem printImage_corners_swapped :
    Mandelbrot.printImage.MIN ⟨Double.fin 0, Double.fin 0⟩ (Double.fin 1)
      ⟨Double.fin (-2), Double.fin (-1)⟩ = ⟨Double.fin (-2), Double.fin (-1)⟩ ∧
    Mandelbrot.printImage.MAX ⟨Double.fin 0, Double.fin 0⟩ (Double.fin 1)
      ⟨Double.fin 1, Double.fin 1⟩ = ⟨Double.fin 1, Double.fin 1⟩ ∧
    mapPixelToComplex 0 0 4 4
      (Mandelbrot.printImage ⟨Double.fin 0, Double.fin 0⟩ (Double.fin 1)
        ⟨Double.fin 1, Double.fin 1⟩ ⟨Double.fin (-2), Double.fin (-1)⟩ 4 4 50)._lowerBounds
      (Mandelbrot.printImage ⟨Double.fin 0, Double.fin 0⟩ (Double.fin 1)
        ⟨Double.fin 1, Double.fin 1⟩ ⟨Double.fin (-2), Double.fin (-1)⟩ 4 4 50)._upperBounds
      = ⟨Double.fin 1, Double.fin 1⟩ ∧
    (Mandelbrot.printImage ⟨Double.fin 0, Double.fin 0⟩ (Double.fin 1)
        ⟨Double.fin 1, Double.fin 1⟩ ⟨Double.fin (-2), Double.fin (-1)⟩ 4 4 50)._upperBounds
      = ⟨Double.fin (-2), Double.fin (-1)⟩ := by
  decide!

/-! ## C9 -/

/-- Scaling a finite point by `1` and adding the offset of the centre `(0, 0)` returns the
point. -/
theorem scale_one_offset_zero (a b : ℚ) (ha : Representable a) (hb : Representable b) :
    ((⟨Double.fin a, Double.fin b⟩ : Complex).mul (Complex.ofReal (Double.fin 1))).add
      (Mandelbrot.printImage.OFFSET ⟨Double.fin 0, Double.fin 0⟩ (Double.fin 1)) =
      ⟨Double.fin a, Double.fin b⟩ := by
  have hoff : Mandelbrot.printImage.OFFSET ⟨Double.fin 0, Double.fin 0⟩ (Double.fin 1) =
      ⟨Double.fin 0, Double.fin 0⟩ := by decide!
  have ha' : roundQ a = Double.fin a := ha
  have hb' : roundQ b = Double.fin b := hb
  rw [hoff]
  simp only [Complex.mul, Complex.add, Complex.ofReal, Double.mul, Double.sub, Double.add,
    mul_one, mul_zero, one_mul, sub_zero, add_zero, zero_add, roundQ_zero, ha', hb']

/-- C9, as stated, fails for a bound with an infinite component: for the upper bounds
`(1, +∞)`, the centre `(0, 0)` and the scale `1`, the offset is `(0, 0)` and the real part
of `MAX` is `1*1 - ∞*0`, a NaN, so `MAX` is not the upper bounds. -/
theorem printImage_identity_zoom_infinite :
    Mandelbrot.printImage.OFFSET ⟨Double.fin 0, Double.fin 0⟩ (Double.fin 1) =
      ⟨Double.fin 0, Double.fin 0⟩ ∧
    Mandelbrot.printImage.MAX ⟨Double.fin 0, Double.fin 0⟩ (Double.fin 1)
      ⟨Double.fin 1, Double.inf false⟩ = ⟨Double.nan, Double.inf false⟩ ∧
    Mandelbrot.printImage.MAX ⟨Double.fin 0, Double.fin 0⟩ (Double.fin 1)
      ⟨Double.fin 1, Double.inf false⟩ ≠ ⟨Double.fin 1, Double.inf false⟩ := by
  decide!

/-- C9 (amended to finite bounds): for every pair of base bounds whose components are
finite doubles, the zoom derivation of `printImage` with centre `(0, 0)` and scale `1.0`
yields `OFFSET = (0, 0)`, `MAX = upperBounds` and `MIN = lowerBounds` exactly. -/
theorem printImage_identity_zoom (a b a' b' : ℚ) (ha : Representable a) (hb : Representable b)
    (ha' : Representable a') (hb' : Representable b') :
    Mandelbrot.printImage.OFFSET ⟨Double.fin 0, Double.fin 0⟩ (Double.fin 1) =
      ⟨Double.fin 0, Double.fin 0⟩ ∧
    Mandelbrot.printImage.MAX ⟨Double.fin 0, Double.fin 0⟩ (Double.fin 1)
      ⟨Double.fin a, Double.fin b⟩ = ⟨Double.fin a, Double.fin b⟩ ∧
    Mandelbrot.printImage.MIN ⟨Double.fin 0, Double.fin 0⟩ (Double.fin 1)
      ⟨Double.fin a', Double.fin b'⟩ = ⟨Double.fin a', Double.fin b'⟩ :=
  ⟨by decide!, scale_one_offset_zero a b ha hb, scale_one_offset_zero a' b' ha' hb'⟩

/-- C9 for the bounds of the whole image, `(1, 1)` and `(-2, -1)`. -/
theorem printImage_identity_zoom_witness :
    Mandelbrot.printImage.MAX ⟨Double.fin 0, Double.fin 0⟩ (Double.fin 1)
      ⟨Double.fin 1, Double.fin 1⟩ = ⟨Double.fin 1, Double.fin 1⟩ ∧
    Mandelbrot.printImage.MIN ⟨Double.fin 0, Double.fin 0⟩ (Double.fin 1)
      ⟨Double.fin (-2), Double.fin (-1)⟩ = ⟨Double.fin (-2), Double.fin (-1)⟩ :=
  (printImage_identity_zoom 1 1 (-2) (-1) (by decide!) (by decide!) (by decide!)
    (by decide!)).2

/-! ## C10 -/

/-- Before a generation pass every cell of a generator of either constructor holds `0`. -/
theorem allocate_read (height width x y : Int) (hx : 0 ≤ x) (hxw : x < width) (hy : 0 ≤ y)
    (hyh : y < height) :
    (allocateBidimensionalDynamicArray height width).read y x = some 0 := by
  have hxn : x.toNat < width.toNat := by omega
  have hyn : y.toNat < height.toNat := by omega
  simp [allocateBidimensionalDynamicArray_eq, Array2D.read, hx, hy, List.getElem?_replicate,
    hxn, hyn]

/-- C10: for every generator and every positive budget `N`, after `loadIterationMap(N)`
every cell of the iteration grid holds an unsigned integer no larger than `N`; and before
generation every cell of a generator built by either constructor holds `0`, also no larger
than `N`. -/
theorem iterationMap_le_budget (m : Mandelbrot) (hm : m.WellFormed) (N x y : Int)
    (hN : 0 < N) (hx : 0 ≤ x) (hxw : x < m._width) (hy : 0 ≤ y) (hyh : y < m._height)
    (upperBounds lowerBounds : Complex) :
    (∃ v : Int, (m.loadIterationMap N).getIterationFromMap x y = some v ∧ 0 ≤ v ∧ v ≤ N) ∧
    (Mandelbrot.new m._height m._width).getIterationFromMap x y = some 0 ∧
    (Mandelbrot.newWithBounds m._height m._width upperBounds lowerBounds).getIterationFromMap
      x y = some 0 ∧
    (0 : Int) ≤ N := by
  refine ⟨?_, ?_, ?_, hN.le⟩
  · have hread := Mandelbrot.loadIterationMap_read hm N x y hx hxw hy hyh
    rw [Mandelbrot.getMandelbrotIterationsAt, Mandelbrot.getMandelbrotIterations_eq] at hread
    have hb := getMandelbrotIterations_bounds
      (mapPixelToComplex x y m._width m._height m._lowerBounds m._upperBounds) N
    refine ⟨_, hread, Int.ofNat_nonneg _, ?_⟩
    rw [toUint16, Int.toNat_of_nonneg (Int.emod_nonneg _ (by decide))]
    have h1 : max N 0 = N := max_eq_left hN.le
    omega
  · simp [Mandelbrot.getIterationFromMap, Mandelbrot.new, allocate_read _ _ x y hx hxw hy hyh]
  · simp [Mandelbrot.getIterationFromMap, Mandelbrot.newWithBounds,
      allocate_read _ _ x y hx hxw hy hyh]

/-- C10 at the centre pixel of the generator `Mandelbrot(4, 4)` with budget `50`. -/
theorem iterationMap_le_budget_witness :
    (Mandelbrot.new 4 4).WellFormed ∧ (0 : Int) < 50 ∧
    (∃ v : Int, ((Mandelbrot.new 4 4).loadIterationMap 50).getIterationFromMap 2 2 = some v ∧
      0 ≤ v ∧ v ≤ 50) ∧
    (Mandelbrot.new 4 4).getIterationFromMap 2 2 = some 0 :=
  have h := iterationMap_le_budget (Mandelbrot.new 4 4) (Mandelbrot.new_wellFormed 4 4) 50 2 2
    (by decide) (by decide) (by decide) (by decide) (by decide) ⟨Double.fin 1, Double.fin 1⟩
    ⟨Double.fin (-2), Double.fin (-1)⟩
  ⟨Mandelbrot.new_wellFormed 4 4, by decide, h.1, h.2.1⟩

/-! ## C11 -/

/-- C11: for a generator built by either constructor and every pixel `0 ≤ x < width`,
`0 ≤ y < height`, `getIterationFromMap(x, y)` called before any `loadIterationMap` returns
`0`. -/
theorem getIterationFromMap_before_load (height width x y : Int)
    (upperBounds lowerBounds : Complex)
    (hx : 0 ≤ x) (hxw : x < width) (hy : 0 ≤ y) (hyh : y < height) :
    (Mandelbrot.new height width).getIterationFromMap x y = some 0 ∧
    (Mandelbrot.newWithBounds height width upperBounds lowerBounds).getIterationFromMap x y =
      some 0 := by
  constructor
  · simp [Mandelbrot.getIterationFromMap, Mandelbrot.new, allocate_read _ _ x y hx hxw hy hyh]
  · simp [Mandelbrot.getIterationFromMap, Mandelbrot.newWithBounds,
      allocate_read _ _ x y hx hxw hy hyh]

/-- C11 at the last pixel of a `3 × 2` image. -/
theorem getIterationFromMap_before_load_witness :
    (Mandelbrot.new 2 3).getIterationFromMap 2 1 = some 0 ∧
    (Mandelbrot.newWithBounds 2 3 ⟨Double.fin 1, Double.fin 1⟩
      ⟨Double.fin (-2), Double.fin (-1)⟩).getIterationFromMap 2 1 = some 0 :=
  getIterationFromMap_before_load 2 3 2 1 _ _ (by decide) (by decide) (by decide) (by decide)

/-! ## C12 -/

theorem Double.mul_symm (x y : Double) : x.mul y = y.mul x := by
  cases x <;> cases y <;> simp [Double.mul, mul_comm, Bool.xor_comm]

/-- C12: on all values `(a, b)` and `(c, d)`, `Complex::operator*` returns
`(a*c - b*d, a*d + b*c)`, `sqmagnitude` of `(a, b)` returns `a*a + b*b`, and `operator+` and
`operator-` are componentwise, every operation being the one of doubles.  Each operator is
a function of its two operands that returns a new value; its body assigns to no member. -/
theorem Complex.operators (a b c d : Double) :
    Complex.mul ⟨a, b⟩ ⟨c, d⟩ = ⟨(a.mul c).sub (b.mul d), (a.mul d).add (b.mul c)⟩ ∧
    Complex.sqmagnitude ⟨a, b⟩ = (a.mul a).add (b.mul b) ∧
    Complex.add ⟨a, b⟩ ⟨c, d⟩ = ⟨a.add c, b.add d⟩ ∧
    Complex.sub ⟨a, b⟩ ⟨c, d⟩ = ⟨a.sub c, b.sub d⟩ := by
  refine ⟨?_, rfl, rfl, rfl⟩
  simp only [Complex.mul, Double.mul_symm c b]

/-! ## C14 -/

/-- C14 fails on the code: the orbit of `c = (-2, -1)` exceeds the squared magnitude `4` at
its first point (`z₁ = c`, squared magnitude `5`), within the budget `50`, and
`getMandelbrotIterations` returns `1`, the number of passes, not `0`. -/
theorem getMandelbrotIterations_escaping_not_zero :
    (orbit ⟨Double.fin (-2), Double.fin (-1)⟩ 1).sqmagnitude = Double.fin 5 ∧
    (orbit ⟨Double.fin (-2), Double.fin (-1)⟩ 1).sqmagnitude.gt (Double.ofInt 4) = true ∧
    getMandelbrotIterations ⟨Double.fin (-2), Double.fin (-1)⟩ 50 = 1 ∧
    getMandelbrotIterations ⟨Double.fin (-2), Double.fin (-1)⟩ 50 ≠ 0 := by
  decide!

/-- With a budget of at least `1` the count is never `0`: the guard holds at `z₀ = 0`. -/
theorem getMandelbrotIterations_pos (c : Complex) (N : Int) (hN : 1 ≤ N) :
    1 ≤ getMandelbrotIterations c N := by
  obtain ⟨k, hk, -, hexit, -⟩ := getMandelbrotIterations_spec c N (by omega)
  rw [hk]
  rcases Nat.eq_zero_or_pos k with h0 | hpos
  · subst h0
    rcases hexit with h | h
    · simp at h
      omega
    · rw [orbit_zero_le] at h
      exact Bool.noConfusion h
  · exact_mod_cast hpos

/-! ## C18 -/

/-- C18: the private member `Mandelbrot::getMandelbrotIterations(Complex, int)` refines the
free function: for every `c` and every budget `N` its result is the result of the free
function reduced modulo `2^16`, hence the two agree for every `N ≤ 65535`. -/
theorem Mandelbrot.getMandelbrotIterations_refines (c : Complex) (N : Int) :
    ((Mandelbrot.getMandelbrotIterations c N : uint16) : Int) =
      fractals.getMandelbrotIterations c N % 65536 ∧
    (N ≤ 65535 →
      ((Mandelbrot.getMandelbrotIterations c N : uint16) : Int) =
        fractals.getMandelbrotIterations c N) := by
  have hb := getMandelbrotIterations_bounds c N
  have hmod : ((Mandelbrot.getMandelbrotIterations c N : uint16) : Int) =
      fractals.getMandelbrotIterations c N % 65536 := by
    rw [Mandelbrot.getMandelbrotIterations_eq, toUint16]
    exact Int.toNat_of_nonneg (Int.emod_nonneg _ (by decide))
  refine ⟨hmod, fun hN => ?_⟩
  rw [hmod, Int.emod_eq_of_lt hb.1 (by omega)]

/-! ## C19 -/

/-- C19: the escape-time count is a truncation in the budget: for every `c` and budgets
`0 ≤ N ≤ M`, `getMandelbrotIterations(c, N) = min(N, getMandelbrotIterations(c, M))`; in
particular the count does not decrease when the budget grows. -/
theorem getMandelbrotIterations_truncation (c : Complex) (N M : Int) (hN : 0 ≤ N)
    (hNM : N ≤ M) :
    getMandelbrotIterations c N = min N (getMandelbrotIterations c M) ∧
    getMandelbrotIterations c N ≤ getMandelbrotIterations c M := by
  obtain ⟨kN, hkN, hleN, hexitN, hbelowN⟩ := getMandelbrotIterations_spec c N hN
  obtain ⟨kM, hkM, hleM, hexitM, hbelowM⟩ := getMandelbrotIterations_spec c M (by omega)
  have key : (kN : Int) = min N (kM : Int) := by
    rcases le_or_lt N (kM : Int) with h | h
    · rw [min_eq_left h]
      rcases hexitN with h1 | h1
      · exact h1
      · by_contra hne
        have hlt : kN < kM := by omega
        rw [hbelowM kN hlt] at h1
        exact Bool.noConfusion h1
    · rw [min_eq_right h.le]
      have hexM : (orbit c kM).sqmagnitude.le (Double.ofInt 4) = false := by
        rcases hexitM with h1 | h1
        · omega
        · exact h1
      have h1 : ¬ kM < kN := fun hlt => by
        rw [hbelowN kM hlt] at hexM
        exact Bool.noConfusion hexM
      have hexN : (orbit c kN).sqmagnitude.le (Double.ofInt 4) = false := by
        rcases hexitN with h2 | h2
        · omega
        · exact h2
      have h2 : ¬ kN < kM := fun hlt => by
        rw [hbelowM kN hlt] at hexN
        exact Bool.noConfusion hexN
      omega
  rw [hkN, hkM, key]
  exact ⟨rfl, min_le_right _ _⟩

/-- C19 at the point `(-1/2, 1/2)` with the budgets `3` and `50`. -/
theorem getMandelbrotIterations_truncation_witness :
    getMandelbrotIterations ⟨Double.fin (-1 / 2), Double.fin (1 / 2)⟩ 3 =
      min 3 (getMandelbrotIterations ⟨Double.fin (-1 / 2), Double.fin (1 / 2)⟩ 50) ∧
    getMandelbrotIterations ⟨Double.fin (-1 / 2), Double.fin (1 / 2)⟩ 3 ≤
      getMandelbrotIterations ⟨Double.fin (-1 / 2), Double.fin (1 / 2)⟩ 50 :=
  getMandelbrotIterations_truncation _ 3 50 (by decide) (by decide)

/-! ## C16 -/

/-- A second fill of a row overwrites the first. -/
theorem fillRow_fillRow (f g : Int → uint16) (k : Nat) (row : List uint16) :
    fillRow g k (fillRow f k row) = fillRow g k row := by
  apply List.ext_getElem?
  intro j
  simp only [fillRow_getElem?, fillRow_length]
  split_ifs <;> simp_all

/-- A fill of the whole length of a row leaves nothing of the row. -/
theorem fillRow_full (f : Int → uint16) (row : List uint16) :
    fillRow f row.length row = (List.range row.length).map (fun j : Nat => f j) := by
  apply List.ext_getElem?
  intro j
  rw [fillRow_getElem?, List.getElem?_map]
  by_cases hj : j < row.length
  · simp [hj, List.getElem?_range hj]
  · have hr : (List.range row.length)[j]? = none := List.getElem?_eq_none (by simp; omega)
    simp [hj, List.getElem?_eq_none (not_lt.mp hj), hr]

/-- The grid after a generation pass is the table of the counts of the pixels: row `y`,
column `x` holds what the private member returns for the pixel `(x, y)`. -/
theorem Mandelbrot.loadIterationMap_grid {m : Mandelbrot} (hm : m.WellFormed) (N : Int) :
    (m.loadIterationMap N)._iterationMap =
      (List.range m._height.toNat).map (fun y : Nat =>
        (List.range m._width.toNat).map (fun x : Nat => m.getMandelbrotIterationsAt x y N)) := by
  obtain ⟨hlen, hrows⟩ := hm
  apply List.ext_getElem?
  intro i
  have h1 := Array2D.gridLoop_getElem? m._iterationMap m._width
    (fun x y => m.getMandelbrotIterationsAt x y N) m._height.toNat i
  simp only [forLoop] at h1
  simp only [Mandelbrot.loadIterationMap, forLoop, h1, List.getElem?_map]
  by_cases hi : i < m._height.toNat
  · have hil : i < m._iterationMap.length := hlen ▸ hi
    have hrow : (m._iterationMap[i]).length = m._width.toNat :=
      hrows i _ (List.getElem?_eq_getElem hil)
    rw [if_pos hi, List.getElem?_eq_getElem hil, List.getElem?_range hi]
    simp only [Option.map_some']
    rw [← hrow, fillRow_full]
  · have hil : m._iterationMap.length ≤ i := by omega
    have hr : (List.range m._height.toNat)[i]? = none :=
      List.getElem?_eq_none (by simp; omega)
    rw [if_neg hi, List.getElem?_eq_none hil, hr]
    rfl

/-- C16: a generation pass fully overwrites the grid.  For every generator and budgets
`N1`, `N2`, the grid after `loadIterationMap(N1)` followed by `loadIterationMap(N2)` is the
grid after `loadIterationMap(N2)` alone, so `loadIterationMap(N)` is idempotent, and
`loadIterationMap` leaves the width, the height and both viewport corners unchanged.
Nothing of the old grid remains: after a pass over a generator whose grid has its
dimensions, every cell `(y, x)` holds the count of the pixel `(x, y)`, and two generators
with the same dimensions and corners have the same grid after the pass, whatever their
grids held before. -/
theorem loadIterationMap_overwrites (m : Mandelbrot) (N1 N2 : Int) :
    ((m.loadIterationMap N1).loadIterationMap N2)._iterationMap =
      (m.loadIterationMap N2)._iterationMap ∧
    (m.loadIterationMap N1).loadIterationMap N1 = m.loadIterationMap N1 ∧
    (m.loadIterationMap N1)._width = m._width ∧
    (m.loadIterationMap N1)._height = m._height ∧
    (m.loadIterationMap N1)._lowerBounds = m._lowerBounds ∧
    (m.loadIterationMap N1)._upperBounds = m._upperBounds ∧
    (m.WellFormed →
      (m.loadIterationMap N1)._iterationMap =
        (List.range m._height.toNat).map (fun y : Nat =>
          (List.range m._width.toNat).map (fun x : Nat =>
            Mandelbrot.getMandelbrotIterations
              (mapPixelToComplex x y m._width m._height m._lowerBounds m._upperBounds) N1))) ∧
    (∀ m' : Mandelbrot, m.WellFormed → m'.WellFormed →
      m'._width = m._width → m'._height = m._height →
      m'._lowerBounds = m._lowerBounds → m'._upperBounds = m._upperBounds →
      (m'.loadIterationMap N1)._iterationMap = (m.loadIterationMap N1)._iterationMap) := by
  have hgrid : ∀ A B : Int, ((m.loadIterationMap A).loadIterationMap B)._iterationMap =
      (m.loadIterationMap B)._iterationMap := by
    intro A B
    apply List.ext_getElem?
    intro i
    simp only [Mandelbrot.loadIterationMap, forLoop, Mandelbrot.getMandelbrotIterationsAt]
    have h1 := fun g f => Array2D.gridLoop_getElem? g m._width f m._height.toNat i
    simp only [forLoop] at h1
    rw [h1, h1, h1]
    split_ifs
    · cases hrow : m._iterationMap[i]? with
      | none => rfl
      | some row => simp [fillRow_fillRow]
    · rfl
  refine ⟨hgrid N1 N2, ?_, rfl, rfl, rfl, rfl, ?_, ?_⟩
  · have h := hgrid N1 N1
    simp only [Mandelbrot.loadIterationMap] at h ⊢
    rw [h]
  · intro hm
    rw [Mandelbrot.loadIterationMap_grid hm]
    rfl
  · intro m' hm hm' hw hh hlo hup
    rw [Mandelbrot.loadIterationMap_grid hm, Mandelbrot.loadIterationMap_grid hm']
    simp only [Mandelbrot.getMandelbrotIterationsAt, hw, hh, hlo, hup]

/-- A `2 × 3` generator with the default corners whose cells all hold `9`. -/
theorem nines_wellFormed :
    ({ Mandelbrot.new 2 3 with _iterationMap := [[9, 9, 9], [9, 9, 9]] } :
      Mandelbrot).WellFormed := by
  refine ⟨rfl, ?_⟩
  intro i row h
  rcases i with _ | _ | i
  · simp at h
    simp [← h, Mandelbrot.new]
  · simp at h
    simp [← h, Mandelbrot.new]
  · simp at h

/-- C16 on the generator `Mandelbrot(2, 3)`: after the budget `7` and then the budget `50`,
and after the budget `50` alone, the grid is the table of the counts for the budget `50`,
and so is the grid of a generator with the same dimensions and corners whose cells all
held `9` before the pass. -/
theorem loadIterationMap_overwrites_witness :
    ((Mandelbrot.new 2 3).loadIterationMap 7)._iterationMap = [[1, 3, 7], [7, 7, 7]] ∧
    (((Mandelbrot.new 2 3).loadIterationMap 7).loadIterationMap 50)._iterationMap =
      [[1, 3, 50], [50, 50, 50]] ∧
    ((Mandelbrot.new 2 3).loadIterationMap 50)._iterationMap = [[1, 3, 50], [50, 50, 50]] ∧
    ({ Mandelbrot.new 2 3 with _iterationMap := [[9, 9, 9], [9, 9, 9]] }.loadIterationMap
      50)._iterationMap = ((Mandelbrot.new 2 3).loadIterationMap 50)._iterationMap :=
  have h := loadIterationMap_overwrites (Mandelbrot.new 2 3) 50 50
  ⟨by decide!, by decide!, by decide!,
    h.2.2.2.2.2.2.2 { Mandelbrot.new 2 3 with _iterationMap := [[9, 9, 9], [9, 9, 9]] }
      (Mandelbrot.new_wellFormed 2 3) nines_wellFormed rfl rfl rfl rfl⟩

/-! ## C15 -/

/-- When a set of points passes the guard and is closed under `z ↦ z*z + c`, the loop
entered at one of its points uses up the budget that is left. -/
theorem mandelbrotLoop_of_invariant (c : Complex) (N : Int) (P : Complex → Prop)
    (hP : ∀ z, P z → z.sqmagnitude.le (Double.ofInt 4) = true ∧ P ((z.mul z).add c)) :
    ∀ (left : Nat) (i : Int) (z : Complex), P z → i + left ≤ N →
      mandelbrotLoop c N left i z = i + left := by
  intro left
  induction left with
  | zero => intro i z _ _; simp [mandelbrotLoop]
  | succ left ih =>
    intro i z hz hi
    have hg : i < N ∧ z.sqmagnitude.le (Double.ofInt 4) = true :=
      ⟨by push_cast at hi; omega, (hP z hz).1⟩
    rw [mandelbrotLoop, if_pos hg, ih (i + 1) _ (hP z hz).2 (by push_cast at hi ⊢; omega)]
    push_cast
    ring

/-- C15: the escape test is strict.  For every `c` (a pair of doubles) whose squared
magnitude is exactly `4` and every budget `N ≥ 2`, `getMandelbrotIterations(c, N)` returns
at least `2`; and for `c = (-2, 0)` it returns `N` for every `N ≥ 0`, the orbit going
`0, -2, 2, 2, ...` on the boundary. -/
theorem getMandelbrotIterations_boundary (c : Complex) (N : Int)
    (hre : c._real.IsDouble) (him : c._imag.IsDouble)
    (h4 : c.sqmagnitude.eq (Double.ofInt 4) = true) (hN : 2 ≤ N) :
    2 ≤ getMandelbrotIterations c N ∧
    ∀ M : Int, 0 ≤ M → getMandelbrotIterations ⟨Double.fin (-2), Double.fin 0⟩ M = M := by
  constructor
  · have hsq : c.sqmagnitude.le (Double.ofInt 4) = true := by
      cases hc : c.sqmagnitude with
      | fin q => rw [hc] at h4; simp_all [Double.eq, Double.le, Double.ofInt]
      | inf s => rw [hc] at h4; simp [Double.eq, Double.ofInt] at h4
      | nan => rw [hc] at h4; simp [Double.eq] at h4
    obtain ⟨k, hk, -, hexit, -⟩ := getMandelbrotIterations_spec c N (by omega)
    rw [hk]
    have h1 : orbit c 1 = c := first_step_eq hre him
    match k, hexit with
    | 0, hexit =>
      rcases hexit with h | h
      · simp at h
        omega
      · rw [orbit_zero_le] at h
        exact Bool.noConfusion h
    | 1, hexit =>
      rcases hexit with h | h
      · simp at h
        omega
      · rw [h1, hsq] at h
        exact Bool.noConfusion h
    | k + 2, _ => push_cast; omega
  · intro M hM
    have hP : ∀ z : Complex,
        (z = Complex.zero ∨ z = ⟨Double.fin (-2), Double.fin 0⟩ ∨
          z = ⟨Double.fin 2, Double.fin 0⟩) →
        z.sqmagnitude.le (Double.ofInt 4) = true ∧
        ((z.mul z).add ⟨Double.fin (-2), Double.fin 0⟩ = Complex.zero ∨
          (z.mul z).add ⟨Double.fin (-2), Double.fin 0⟩ = ⟨Double.fin (-2), Double.fin 0⟩ ∨
          (z.mul z).add ⟨Double.fin (-2), Double.fin 0⟩ = ⟨Double.fin 2, Double.fin 0⟩) := by
      rintro z (rfl | rfl | rfl) <;> decide!
    rw [getMandelbrotIterations,
      mandelbrotLoop_of_invariant _ M _ hP M.toNat 0 Complex.zero (Or.inl rfl)
        (by simp [Int.toNat_of_nonneg hM])]
    simp [Int.toNat_of_nonneg hM]

/-- C15 at the point `(0, 2)`, whose squared magnitude is `4`, with budget `50`. -/
theorem getMandelbrotIterations_boundary_witness :
    (⟨Double.fin 0, Double.fin 2⟩ : Complex).sqmagnitude = Double.fin 4 ∧
    2 ≤ getMandelbrotIterations ⟨Double.fin 0, Double.fin 2⟩ 50 ∧
    getMandelbrotIterations ⟨Double.fin (-2), Double.fin 0⟩ 50 = 50 :=
  have h := getMandelbrotIterations_boundary ⟨Double.fin 0, Double.fin 2⟩ 50
    (show Representable 0 by decide!) (show Representable 2 by decide!) (by decide!)
    (by decide)
  ⟨by decide!, h.1, h.2 50 (by decide)⟩

/-! ## C17 -/

/-- C17, as stated, fails: for an image `3` wide and the corners `(0, 0)` and `(1, 1)`, the
pixel column `1` over the inverted viewport has the real part `1 * ((0 - 1)/3) + 1`, in
doubles `0.6666666666666667`, and the mirrored column `2` over the viewport itself has the
real part `2 * ((1 - 0)/3) + 0`, in doubles `0.6666666666666666`. -/
theorem mapPixelToComplex_mirror_rounds :
    mapPixelToComplex 1 0 3 3 ⟨Double.fin 1, Double.fin 1⟩ ⟨Double.fin 0, Double.fin 0⟩ =
      ⟨Double.fin (3002399751580331 / 4503599627370496), Double.fin 1⟩ ∧
    mapPixelToComplex (3 - 1) (3 - 0) 3 3 ⟨Double.fin 0, Double.fin 0⟩
        ⟨Double.fin 1, Double.fin 1⟩ =
      ⟨Double.fin (6004799503160661 / 9007199254740992), Double.fin 1⟩ ∧
    mapPixelToComplex 1 0 3 3 ⟨Double.fin 1, Double.fin 1⟩ ⟨Double.fin 0, Double.fin 0⟩ ≠
      mapPixelToComplex (3 - 1) (3 - 0) 3 3 ⟨Double.fin 0, Double.fin 0⟩
        ⟨Double.fin 1, Double.fin 1⟩ := by
  decide!

/-- C17 (amended): an inverted viewport is no error, `mapPixelToComplex` being defined on
every pair of corners, and it produces the mirrored image up to rounding: for every
`width > 0`, `height > 0`, every pixel `(x, y)` and every pair of finite corners `min`,
`max`, `mapPixelToComplex(x, y, width, height, max, min)` equals
`mapPixelToComplex(width - x, height - y, width, height, min, max)` whenever none of the
operations of the two calls rounds. -/
theorem mapPixelToComplex_mirror (x y width height : Int) (a a' b b' : ℚ)
    (hw : 0 < width) (hh : 0 < height)
    (hr : ExactCoordinate x width b a) (hi : ExactCoordinate y height b' a')
    (hr' : ExactCoordinate (width - x) width a b)
    (hi' : ExactCoordinate (height - y) height a' b') :
    mapPixelToComplex x y width height ⟨Double.fin b, Double.fin b'⟩
        ⟨Double.fin a, Double.fin a'⟩ =
      mapPixelToComplex (width - x) (height - y) width height ⟨Double.fin a, Double.fin a'⟩
        ⟨Double.fin b, Double.fin b'⟩ := by
  have hwq : (width : ℚ) ≠ 0 := by exact_mod_cast hw.ne'
  have hhq : (height : ℚ) ≠ 0 := by exact_mod_cast hh.ne'
  simp only [mapPixelToComplex, Complex.real, Complex.imag]
  rw [mapCoordinate_exact x width b a hw.ne' hr.1 hr.2.1 hr.2.2.1 hr.2.2.2,
    mapCoordinate_exact y height b' a' hh.ne' hi.1 hi.2.1 hi.2.2.1 hi.2.2.2,
    mapCoordinate_exact (width - x) width a b hw.ne' hr'.1 hr'.2.1 hr'.2.2.1 hr'.2.2.2,
    mapCoordinate_exact (height - y) height a' b' hh.ne' hi'.1 hi'.2.1 hi'.2.2.1 hi'.2.2.2]
  have h1 : (x : ℚ) * (a - b) / width + b = ((width - x : Int) : ℚ) * (b - a) / width + a := by
    push_cast
    field_simp
    ring
  have h2 : (y : ℚ) * (a' - b') / height + b' =
      ((height - y : Int) : ℚ) * (b' - a') / height + a' := by
    push_cast
    field_simp
    ring
  rw [h1, h2]

/-- C17 at the pixel `(1, 3)` of a `4 × 4` image with the corners `(-2, -1)` and `(1, 1)`. -/
theorem mapPixelToComplex_mirror_witness :
    mapPixelToComplex 1 3 4 4 ⟨Double.fin 1, Double.fin 1⟩ ⟨Double.fin (-2), Double.fin (-1)⟩ =
      mapPixelToComplex (4 - 1) (4 - 3) 4 4 ⟨Double.fin (-2), Double.fin (-1)⟩
        ⟨Double.fin 1, Double.fin 1⟩ :=
  mapPixelToComplex_mirror 1 3 4 4 (-2) (-1) 1 1 (by decide) (by decide) (by decide!)
    (by decide!) (by decide!) (by decide!)

/-! ## C20 -/

/-- Rounding is symmetric about zero. -/
theorem roundQ_neg (q : ℚ) : roundQ (-q) = (roundQ q).neg := by
  by_cases h0 : q = 0
  · subst h0
    simp [roundQ, Double.neg]
  · have h0' : ¬ -q = 0 := fun h => h0 (neg_eq_zero.mp h)
    rcases lt_or_gt_of_ne h0 with hlt | hgt
    · have h1 : ¬ -q < 0 := by linarith
      simp only [roundQ, h0, h0', if_false, abs_neg, h1, hlt, if_true, decide_True, decide_False]
      split_ifs <;> simp [Double.neg]
    · have h1 : -q < 0 := by linarith
      have h2 : ¬ q < 0 := by linarith
      simp only [roundQ, h0, h0', if_false, abs_neg, h1, h2, if_true, decide_True, decide_False]
      split_ifs <;> simp [Double.neg]

namespace Double

theorem neg_neg_eq (x : Double) : x.neg.neg = x := by
  cases x <;> simp [neg]

theorem mul_neg_right (x y : Double) : x.mul y.neg = (x.mul y).neg := by
  cases x with
  | fin a =>
    cases y with
    | fin b => simp only [mul, neg, mul_neg, roundQ_neg]
    | inf t =>
      by_cases ha : a = 0
      · simp [mul, neg, ha]
      · simp [mul, neg, ha]
    | nan => rfl
  | inf s =>
    cases y with
    | fin b =>
      by_cases hb : b = 0
      · simp [mul, neg, hb]
      · rcases lt_or_gt_of_ne hb with hlt | hgt
        · have h1 : ¬ 0 < b := by linarith
          simp [mul, neg, hb, hlt, h1]
        · have h1 : ¬ b < 0 := by linarith
          simp [mul, neg, hb, hgt, h1]
    | inf t => cases s <;> cases t <;> simp [mul, neg]
    | nan => rfl
  | nan => cases y <;> rfl

theorem mul_neg_neg (x y : Double) : x.neg.mul y.neg = x.mul y := by
  rw [mul_neg_right, mul_symm, mul_neg_right, neg_neg_eq, mul_symm]

theorem add_neg_neg (x y : Double) : x.neg.add y.neg = (x.add y).neg := by
  cases x with
  | fin a =>
    cases y with
    | fin b =>
      show roundQ (-a + -b) = (roundQ (a + b)).neg
      rw [← neg_add, roundQ_neg]
    | inf t => rfl
    | nan => rfl
  | inf s =>
    cases y with
    | fin b => rfl
    | inf t => cases s <;> cases t <;> simp [add, neg]
    | nan => rfl
  | nan => cases y <;> rfl

end Double

namespace Complex

theorem conj_sqmagnitude (z : Complex) : z.conj.sqmagnitude = z.sqmagnitude := by
  simp only [conj, sqmagnitude, Double.mul_neg_neg]

theorem conj_step (z c : Complex) : (z.conj.mul z.conj).add c.conj = ((z.mul z).add c).conj := by
  simp only [conj, mul, add, Double.mul_neg_neg]
  simp only [Double.mul_neg_right, Double.add_neg_neg]

theorem conj_zero : Complex.zero.conj = Complex.zero := by
  simp [conj, zero, Double.neg]

end Complex

/-- The loop runs on the conjugate point as on the point, the orbit conjugated. -/
theorem mandelbrotLoop_conj (c : Complex) (N : Int) :
    ∀ (left : Nat) (i : Int) (z : Complex),
      mandelbrotLoop c.conj N left i z.conj = mandelbrotLoop c N left i z := by
  intro left
  induction left with
  | zero => intro i z; rfl
  | succ left ih =>
    intro i z
    simp only [mandelbrotLoop, Complex.conj_sqmagnitude, Complex.conj_step, ih]

/-- C20: the escape-time count is symmetric under complex conjugation: for every
`c = (a, b)` and every budget `N`,
`getMandelbrotIterations((a, -b), N) = getMandelbrotIterations((a, b), N)`. -/
theorem getMandelbrotIterations_conj (a b : Double) (N : Int) :
    getMandelbrotIterations ⟨a, b.neg⟩ N = getMandelbrotIterations ⟨a, b⟩ N := by
  have h := mandelbrotLoop_conj ⟨a, b⟩ N N.toNat 0 Complex.zero
  rw [Complex.conj_zero] at h
  exact h

/-! ## A bound on rounding -/

theorem pow2_eq_zpow (e : Int) : pow2 e = (2 : ℚ) ^ e := by
  unfold pow2
  split_ifs with h
  · obtain ⟨n, rfl⟩ : ∃ n : Nat, e = (n : Int) := ⟨e.toNat, by omega⟩
    simp
  · obtain ⟨n, rfl⟩ : ∃ n : Nat, e = -(n : Int) := ⟨(-e).toNat, by omega⟩
    simp

theorem log2Loop_spec :
    ∀ (left n : Nat), 1 ≤ n → n ≤ left →
      2 ^ log2Loop left n ≤ n ∧ n < 2 ^ (log2Loop left n + 1)
  | 0, n, h1, h2 => by omega
  | left + 1, n, h1, h2 => by
    rw [log2Loop]
    split_ifs with h
    · have ih := log2Loop_spec left (n / 2) (by omega) (by omega)
      rw [pow_succ, pow_succ] at *
      omega
    · simp
      omega

/-- The leading bit of `n` is at the position `log2 n`. -/
theorem log2_spec {n : Nat} (hn : 1 ≤ n) : 2 ^ log2 n ≤ n ∧ n < 2 ^ (log2 n + 1) :=
  log2Loop_spec n n hn (le_refl n)

/-- The power of two that `ilog2` names is not above the number. -/
theorem pow2_ilog2_le {a : ℚ} (ha : 0 < a) : pow2 (ilog2 a) ≤ a := by
  unfold ilog2
  simp only
  split_ifs with h
  · exact h
  · have hnum : 0 < a.num := Rat.num_pos.mpr ha
    have hn1 : 1 ≤ a.num.natAbs := by omega
    have hd1 : 1 ≤ a.den := a.den_pos
    have hln := (log2_spec hn1).1
    have hld := (log2_spec hd1).2
    have hnq : ((2 : ℚ) ^ log2 a.num.natAbs) ≤ (a.num : ℚ) := by
      have h1 : ((2 ^ log2 a.num.natAbs : Nat) : Int) ≤ a.num := by
        have : ((a.num.natAbs : Nat) : Int) = a.num := Int.natAbs_of_nonneg hnum.le
        rw [← this]
        exact_mod_cast hln
      exact_mod_cast h1
    have hdq : (a.den : ℚ) ≤ (2 : ℚ) ^ (log2 a.den + 1) := by
      exact_mod_cast hld.le
    have ha_eq : a = (a.num : ℚ) / (a.den : ℚ) := (Rat.num_div_den a).symm
    have hexp : ((log2 a.num.natAbs : Int) - (log2 a.den : Int) - 1) =
        (log2 a.num.natAbs : Int) - ((log2 a.den + 1 : Nat) : Int) := by
      push_cast
      ring
    rw [pow2_eq_zpow, hexp, zpow_sub₀ two_ne_zero, zpow_natCast, zpow_natCast]
    have hdpos : (0 : ℚ) < a.den := by exact_mod_cast a.den_pos
    have key : (2 : ℚ) ^ log2 a.num.natAbs / (2 : ℚ) ^ (log2 a.den + 1) ≤
        (a.num : ℚ) / (a.den : ℚ) := by
      rw [div_le_div_iff₀ (by positivity) hdpos]
      exact mul_le_mul hnq hdq hdpos.le (by exact_mod_cast hnum.le)
    calc (2 : ℚ) ^ log2 a.num.natAbs / (2 : ℚ) ^ (log2 a.den + 1)
        ≤ (a.num : ℚ) / (a.den : ℚ) := key
      _ = a := ha_eq.symm

theorem roundEven_le {x : ℚ} {M : Int} (h : x ≤ M) : roundEven x ≤ M := by
  have hf : ⌊x⌋ ≤ M := by
    have := Int.floor_le_floor h
    rwa [Int.floor_intCast] at this
  unfold roundEven
  simp only
  rcases hf.lt_or_eq with hlt | heq
  · split_ifs <;> omega
  · have hx : x = (M : ℚ) := le_antisymm h (heq ▸ Int.floor_le x)
    have hr : x - (⌊x⌋ : ℚ) < 1 / 2 := by
      rw [heq, hx]
      norm_num
    rw [if_pos hr]
    exact hf

/-- Rounding does not carry a number from `[0, 2^n]` above `2^n`. -/
theorem roundQ_le_pow2 {q : ℚ} (n : Int) (hn : -1074 ≤ n) (hn' : n < 1024) (h0 : 0 ≤ q)
    (hq : q ≤ pow2 n) : ∃ r, roundQ q = Double.fin r ∧ 0 ≤ r ∧ r ≤ pow2 n := by
  by_cases hq0 : q = 0
  · exact ⟨0, by rw [hq0, roundQ_zero], le_refl 0, (pow2_pos n).le⟩
  · have hpos : 0 < q := lt_of_le_of_ne h0 (Ne.symm hq0)
    have habs : |q| = q := abs_of_pos hpos
    have hk : ilog2 q ≤ n := by
      have h1 : pow2 (ilog2 q) ≤ pow2 n := (pow2_ilog2_le hpos).trans hq
      rw [pow2_eq_zpow, pow2_eq_zpow] at h1
      exact (zpow_le_zpow_iff_right₀ (by norm_num : (1 : ℚ) < 2)).mp h1
    obtain ⟨e, he⟩ : ∃ e, e = max (ilog2 q - 52) (-1074) := ⟨_, rfl⟩
    have hen : e ≤ n := by
      rw [he]
      exact max_le (by omega) hn
    obtain ⟨d, hd⟩ : ∃ d : Nat, n - e = (d : Int) := ⟨(n - e).toNat, by omega⟩
    have hsplit : pow2 n = ((2 ^ d : Nat) : Int) * pow2 e := by
      rw [pow2_eq_zpow, pow2_eq_zpow, show n = (d : Int) + e by omega,
        zpow_add₀ two_ne_zero, zpow_natCast]
      push_cast
      ring
    have hdiv : q / pow2 e ≤ (((2 ^ d : Nat) : Int) : ℚ) := by
      rw [div_le_iff₀ (pow2_pos e), ← hsplit]
      exact hq
    have hround : (roundEven (q / pow2 e) : ℚ) ≤ (((2 ^ d : Nat) : Int) : ℚ) := by
      exact_mod_cast roundEven_le hdiv
    have hR : (roundEven (q / pow2 e) : ℚ) * pow2 e ≤ pow2 n := by
      rw [hsplit]
      exact mul_le_mul_of_nonneg_right hround (pow2_pos e).le
    have hR0 : (0 : ℚ) ≤ (roundEven (q / pow2 e) : ℚ) * pow2 e := by
      have : (0 : Int) ≤ roundEven (q / pow2 e) :=
        roundEven_nonneg (div_nonneg h0 (pow2_pos e).le)
      exact mul_nonneg (by exact_mod_cast this) (pow2_pos e).le
    have hbig : ¬ pow2 1024 ≤ (roundEven (q / pow2 e) : ℚ) * pow2 e := by
      have h1 : pow2 n < pow2 1024 := by
        rw [pow2_eq_zpow, pow2_eq_zpow]
        exact (zpow_lt_zpow_iff_right₀ (by norm_num : (1 : ℚ) < 2)).mpr hn'
      intro h
      linarith
    refine ⟨(roundEven (q / pow2 e) : ℚ) * pow2 e, ?_, hR0, hR⟩
    have hlt : ¬ q < 0 := not_lt.mpr h0
    simp only [roundQ, hq0, if_false, habs, ← he, hbig, hlt]

/-! ## C13 -/

/-- The cast `(int)` of a finite value of `[0, 2^20]` is its integer part. -/
theorem Double.toInt_of_le {r : ℚ} (h0 : 0 ≤ r) (h : r ≤ pow2 20) :
    (Double.fin r).toInt = some ⌊r⌋ ∧ 0 ≤ ⌊r⌋ := by
  have hf0 : (0 : Int) ≤ ⌊r⌋ := Int.floor_nonneg.mpr h0
  have hp : pow2 20 = ((1048576 : Int) : ℚ) := by decide!
  have hf1 : ⌊r⌋ ≤ 1048576 := by
    have := Int.floor_le_floor (h.trans hp.le)
    rwa [Int.floor_intCast] at this
  refine ⟨?_, hf0⟩
  simp only [Double.toInt, h0, if_true]
  rw [if_pos ⟨by omega, by omega⟩]

/-- One channel of the colour: the product of a count `m` in `[1, 65535]` and a logarithm
`l` in `[0, 16]` is finite, and its cast reduced modulo `256` lies in `[0, 255]`. -/
theorem channel_range (m : Int) (l : ℚ) (hm1 : 1 ≤ m) (hm : m ≤ 65535) (hl0 : 0 ≤ l)
    (hl : l ≤ 16) :
    ∃ p : ℚ, (Double.ofInt m).mul (Double.fin l) = Double.fin p ∧
      (Double.fin p).toInt = some ⌊p⌋ ∧ ⌊p⌋.tmod 256 = ⌊p⌋ % 256 ∧
      0 ≤ ⌊p⌋ % 256 ∧ ⌊p⌋ % 256 ≤ 255 := by
  have hmq0 : (0 : ℚ) ≤ (m : ℚ) := by exact_mod_cast (by omega : (0 : Int) ≤ m)
  have hmq : (m : ℚ) ≤ 65535 := by exact_mod_cast hm
  have hprod0 : (0 : ℚ) ≤ (m : ℚ) * l := mul_nonneg hmq0 hl0
  have hprod : (m : ℚ) * l ≤ pow2 20 := by
    have hp : pow2 20 = ((1048576 : Int) : ℚ) := by decide!
    rw [hp]
    have : (m : ℚ) * l ≤ 65535 * 16 := mul_le_mul hmq hl hl0 (by norm_num)
    push_cast
    linarith
  obtain ⟨p, hp, hp0, hple⟩ := roundQ_le_pow2 20 (by decide) (by decide) hprod0 hprod
  obtain ⟨hcast, hfloor⟩ := Double.toInt_of_le hp0 hple
  refine ⟨p, hp, hcast, Int.tmod_eq_emod hfloor (by decide), ?_, ?_⟩ <;> omega

/-- C13: for every iteration count `m` with `1 ≤ m ≤ 65535`, and `log2`, `log10` of
`<math.h>` returning at `m` finite values in `[0, 16]` and `[0, 5]`, the encoder computes
the triple `r = ⌊m * log2(m)⌋ mod 256`, `g = m mod 256`, `b = ⌊m * log10(m)⌋ mod 256`, the
products being those of doubles, and each channel lies in `[0, 255]`; and with
`log2(1) = 0` and `log10(1) = 0` the colour of the count `1` is `(0, 1, 0)`. -/
theorem printImage_rgb_range (log2 log10 : Double → Double) (m : Int) (l2 l10 : ℚ)
    (hm1 : 1 ≤ m) (hm : m ≤ 65535)
    (h2 : log2 (Double.ofInt m) = Double.fin l2) (h2lo : 0 ≤ l2) (h2hi : l2 ≤ 16)
    (h10 : log10 (Double.ofInt m) = Double.fin l10) (h10lo : 0 ≤ l10) (h10hi : l10 ≤ 5) :
    (∃ p2 p10 : ℚ,
      (Double.ofInt m).mul (log2 (Double.ofInt m)) = Double.fin p2 ∧
      (Double.ofInt m).mul (log10 (Double.ofInt m)) = Double.fin p10 ∧
      Mandelbrot.printImage.rgb log2 log10 m = some (⌊p2⌋ % 256, m % 256, ⌊p10⌋ % 256)) ∧
    (∃ r g b : Int, Mandelbrot.printImage.rgb log2 log10 m = some (r, g, b) ∧
      0 ≤ r ∧ r ≤ 255 ∧ 0 ≤ g ∧ g ≤ 255 ∧ 0 ≤ b ∧ b ≤ 255) ∧
    (log2 (Double.ofInt 1) = Double.fin 0 → log10 (Double.ofInt 1) = Double.fin 0 →
      Mandelbrot.printImage.rgb log2 log10 1 = some (0, 1, 0)) := by
  obtain ⟨p2, hp2, hc2, ht2, hr0, hr1⟩ := channel_range m l2 hm1 hm h2lo h2hi
  obtain ⟨p10, hp10, hc10, ht10, hb0, hb1⟩ :=
    channel_range m l10 hm1 hm h10lo (by linarith)
  have hg : m.tmod 256 = m % 256 := Int.tmod_eq_emod (by omega) (by decide)
  have hrgb : Mandelbrot.printImage.rgb log2 log10 m =
      some (⌊p2⌋ % 256, m % 256, ⌊p10⌋ % 256) := by
    simp only [Mandelbrot.printImage.rgb, h2, h10, hp2, hp10, hc2, hc10, ht2, ht10, hg]
  refine ⟨⟨p2, p10, by rw [h2, hp2], by rw [h10, hp10], hrgb⟩,
    ⟨_, _, _, hrgb, hr0, hr1, by omega, by omega, hb0, hb1⟩, ?_⟩
  intro h1 h1'
  have hz : (Double.ofInt 1).mul (Double.fin 0) = Double.fin 0 := by decide!
  have hc : (Double.fin 0).toInt = some 0 := by decide!
  simp only [Mandelbrot.printImage.rgb, h1, h1', hz, hc]
  rfl

/-- C13 at the count `1024`, with the values `log2(1024) = 10` and
`log10(1024) = 3.010299956639812` (and `0` at `1`): the colour is `(0, 0, 10)`. -/
theorem printImage_rgb_range_witness :
    Mandelbrot.printImage.rgb
        (fun x => if x = Double.ofInt 1 then Double.fin 0 else Double.fin 10)
        (fun x => if x = Double.ofInt 1 then Double.fin 0
          else Double.fin (6778592881498239 / 2251799813685248)) 1024 = some (0, 0, 10) ∧
    ∃ r g b : Int,
      Mandelbrot.printImage.rgb
          (fun x => if x = Double.ofInt 1 then Double.fin 0 else Double.fin 10)
          (fun x => if x = Double.ofInt 1 then Double.fin 0
            else Double.fin (6778592881498239 / 2251799813685248)) 1024 = some (r, g, b) ∧
        0 ≤ r ∧ r ≤ 255 ∧ 0 ≤ g ∧ g ≤ 255 ∧ 0 ≤ b ∧ b ≤ 255 :=
  ⟨by decide!,
    (printImage_rgb_range _ _ 1024 10 (6778592881498239 / 2251799813685248) (by decide)
      (by decide) (by decide!) (by decide!) (by decide!) (by decide!) (by decide!)
      (by decide!)).2.1⟩

end fractals
